import Mathlib

/-!
# satisfactory-calculator: production-chain expansion

A shallow embedding of `main.go`.

Two embeddings of the same source are used.

The exact embedding (`buildRecipe`, `expand`, `buildingQuantityLoop`,
`efficiencyOf`) serves the claims about the structure of the expansion: which
rows are written, in which order, with which names, how demands are merged.

* `float64` values are exact rationals (`ℚ`) and `int` is `Nat`: no rounding,
  no overflow, no wrap-around.  A step whose `float64` result would be `±Inf`
  or `NaN` (a division by zero in `fractionToFloat`) stops the run with
  `Failure.notFinite`.
* `panic(err)` stops the run with `Failure.parseError`.
* Recursion and the `for` loop of `buildRecipe` are driven by one fuel
  argument; running out of fuel is `Failure.outOfFuel`.

The machine embedding (`buildRecipe64`, `expand64`, `sizingLoop64`,
`efficiency64`) serves the claims that the arithmetic decides: the building
count, the efficiency, the closed form of the count, termination.

* `float64` is `F64`: the finite binary64 values as sign and magnitude, the
  two infinities and NaN, every operation rounded to nearest, ties to even,
  with gradual underflow and overflow to infinity.
* `int` is taken as the 64-bit `int` of the usual Go platforms: an `Int` in
  `[-2^63, 2^63 - 1]`, and `n++` wraps (`incr64`).
* `panic(err)` stops the run with `Stop.panic`.
* The nesting of calls and the tests of each sizing loop have separate
  budgets, which the program does not have: `Stop.depth` and `Stop.loop`.
* `sizingLoop64_of_exact` relates the two sizing loops: they return the same
  count when it lies in the `int` range and the products tested are exact.

Common to both:

* An acyclic catalog is one with a rank function into the natural numbers
  that falls along every ingredient edge.
* A Go `map` that the program ranges over (`Ingredients`, `ByProducts` of a
  recipe) is the list of its key/value pairs in the order the runtime happens
  to visit them; Go leaves that order unspecified, so a property of the
  program has to hold for every order of the same pairs.
* `strconv.ParseFloat` belongs to the Go library; the functions take it as a
  parameter `P`.  `parseDecimal` and `parseDecimal64` are concrete instances
  for plain decimal literals, used to run the models on examples.
-/

namespace SatCalc

/-! ## Outcomes -/

/-- Ways a run stops without a value. -/
inductive Failure where
  /-- The `panic(err)` of `fractionToFloat`. -/
  | parseError
  /-- The `float64` result is `±Inf` or `NaN`, which `ℚ` does not hold. -/
  | notFinite
  /-- The fuel of the model ran out. -/
  | outOfFuel
  deriving DecidableEq

/-- Equality of outcomes is decidable, so closed runs can be evaluated. -/
instance decEqOutcome {α : Type} [DecidableEq α] : DecidableEq (Except Failure α)
  | .ok a, .ok b => if h : a = b then isTrue (by rw [h]) else isFalse (by intro h1; cases h1; exact h rfl)
  | .error e, .error f =>
    if h : e = f then isTrue (by rw [h]) else isFalse (by intro h1; cases h1; exact h rfl)
  | .ok _, .error _ => isFalse (by intro h; cases h)
  | .error _, .ok _ => isFalse (by intro h; cases h)

/-- The pair `(value, err != nil)` returned by `strconv.ParseFloat(s, 64)`. -/
abbrev Parser := String → ℚ × Bool

/-! ## strings.Split(s, "/") -/

/-- Worker of `splitSlash`: `cur` holds the characters of the current piece in
reverse. -/
def splitSlashAux : List Char → List Char → List String
  | [], cur => [String.mk cur.reverse]
  | c :: cs, cur =>
    if c = '/' then String.mk cur.reverse :: splitSlashAux cs []
    else splitSlashAux cs (c :: cur)

/-- The pieces `strings.Split(s, "/")` returns: always at least one. -/
def splitSlash (s : String) : List String :=
  splitSlashAux s.data []

/-! ## A decimal instance of ParseFloat -/

/-- Value of a decimal digit character. -/
def digitVal (c : Char) : Option Nat :=
  if '0' ≤ c ∧ c ≤ '9' then some (c.toNat - 48) else none

/-- Reads `digits [ "." digits ]`: the digits read as one natural number and the
count of digits after the point; `none` on any other character, on a second
point and when there is no digit at all. -/
def scanDecimal : List Char → Nat → Bool → Nat → Bool → Option (Nat × Nat)
  | [], mant, _, frac, sawDigit => if sawDigit then some (mant, frac) else none
  | c :: cs, mant, sawDot, frac, sawDigit =>
    if c = '.' then
      if sawDot then none else scanDecimal cs mant true frac sawDigit
    else
      match digitVal c with
      | some d => scanDecimal cs (10 * mant + d) sawDot (if sawDot then frac + 1 else frac) true
      | none => none

/-- `strconv.ParseFloat` on plain decimal literals `[+-] digits [. digits]`,
where it returns the number and a nil error; on every other string this
instance reports a syntax error with value 0, as the library does for a string
that is not a number at all. -/
def parseDecimal : Parser := fun s =>
  let signed : Bool × List Char :=
    match s.data with
    | '-' :: cs => (true, cs)
    | '+' :: cs => (false, cs)
    | cs => (false, cs)
  match scanDecimal signed.2 0 false 0 false with
  | some (mant, frac) =>
    ((if signed.1 then -1 else 1) * (mant : ℚ) / (10 : ℚ) ^ frac, false)
  | none => (0, true)

/-! ## fractionToFloat (main.go 14-36) -/

/-- The function `fractionToFloat`.  In the two-sided branch the source assigns
`err` twice and tests it once, after the second assignment. -/
def fractionToFloat (P : Parser) (fraction : String) : Except Failure ℚ :=
  match splitSlash fraction with
  | [] => .error .parseError -- not reached: Split returns at least one piece
  | [whole] =>
    let (float, err) := P whole
    if err then .error .parseError else .ok float
  | left :: right :: _ =>
    let (lhs, _) := P left
    let (rhs, err) := P right
    if err then .error .parseError
    else if rhs = 0 then .error .notFinite
    else .ok (lhs / rhs)

/-! ## Data model (main.go 38-76) -/

/-- The struct `Building`; the field `Type` is `Typ` here. -/
structure Building where
  Typ : String
  Max : String
  deriving DecidableEq

/-- The struct `Recipe`; the two maps are lists of pairs in visiting order. -/
structure Recipe where
  Ingredients : List (String × String)
  Building : Building
  Alts : List String
  ByProducts : List (String × String)
  deriving DecidableEq

/-- The zero value of `Recipe`, which `recipes[k]` yields for a missing key. -/
def Recipe.zero : Recipe := ⟨[], ⟨"", ""⟩, [], []⟩

/-- The map `Recipes`: lookup by name, `none` for a missing key. -/
abbrev Recipes := String → Option Recipe

/-- The struct `Row`. -/
structure Row where
  Item : String
  Quantity : ℚ
  BldgType : String
  BldgQuantity : Nat
  Efficiency : ℚ
  deriving DecidableEq

/-- The slice `Table`. -/
abbrev Table := List Row

/-- A `map[string]float64` (`RawMaterials`, `ByProducts`): name/value pairs with
distinct names, in insertion order. -/
abbrev FloatMap := List (String × ℚ)

/-- Map read `m[k]` with the comma-ok form: `none` for a missing key. -/
def FloatMap.get? (m : FloatMap) (k : String) : Option ℚ :=
  match m with
  | [] => none
  | (k0, v0) :: rest => if k0 = k then some v0 else FloatMap.get? rest k

/-- Map write `m[k] = v`. -/
def FloatMap.set (m : FloatMap) (k : String) (v : ℚ) : FloatMap :=
  match m with
  | [] => [(k, v)]
  | (k0, v0) :: rest => if k0 = k then (k, v) :: rest else (k0, v0) :: FloatMap.set rest k v

/-- The method `ByProducts.Contains` (main.go 47-55). -/
def FloatMap.Contains (m : FloatMap) (item : String) : Bool :=
  match m with
  | [] => false
  | (key, _) :: rest => if key = item then true else FloatMap.Contains rest item

/-- Map read `m[k]` as a value: 0 for a missing key. -/
def FloatMap.get (m : FloatMap) (k : String) : ℚ :=
  (m.get? k).getD 0

/-- The method `Table.Find` (main.go 78-86): the first index whose row has the
item; `none` is the source's -1. -/
def Table.Find : Table → String → Option Nat
  | [], _ => none
  | row :: rest, item =>
    if row.Item = item then some 0 else (Table.Find rest item).map (· + 1)

/-- The read `(*table)[i].Quantity`; `i` comes from `Table.Find`, so it is in
range. -/
def Table.quantityAt (table : Table) (i : Nat) : ℚ :=
  match table.get? i with
  | some row => row.Quantity
  | none => 0

/-- The three accumulators `buildRecipe` threads through its calls. -/
structure State where
  table : Table
  rawMaterials : FloatMap
  byProducts : FloatMap
  deriving DecidableEq

/-- The accumulators `main` starts from: `&Table{}`, `&RawMaterials{}`,
`&ByProducts{}`. -/
def State.empty : State := ⟨[], [], []⟩

/-! ## buildRecipe (main.go 107-181) -/

/-- Lines 132-139: for each requested name `altA`, range over the alts of the
recipe that is active when `altA` is reached (the range expression is
evaluated once per outer step) and switch item and recipe on a match. -/
def substitute (recipes : Recipes) (alts : List String) (item : String) (recipe : Recipe) :
    String × Recipe :=
  alts.foldl
    (fun cur altA =>
      cur.2.Alts.foldl
        (fun acc altB => if altA = altB then (altA, (recipes altA).getD Recipe.zero) else acc)
        cur)
    (item, recipe)

/-- Lines 142-145 on exact numbers: `buildingQuantity` starts at the given
count and is incremented while
`quantity > buildingMax * float64(buildingQuantity)`; each test of the loop
condition uses one unit of fuel.  The product is not rounded and the counter
does not wrap; `sizingLoop64` is the loop on `float64` and `int`. -/
def buildingQuantityLoop (quantity buildingMax : ℚ) : Nat → Nat → Option Nat
  | 0, _ => none
  | fuel + 1, buildingQuantity =>
    if quantity > buildingMax * (buildingQuantity : ℚ) then
      buildingQuantityLoop quantity buildingMax fuel (buildingQuantity + 1)
    else some buildingQuantity

/-- Line 147 on exact numbers:
`(quantity / (buildingMax*float64(buildingQuantity))) * 100`, not rounded;
`efficiency64` is the expression on `float64`. -/
def efficiencyOf (quantity buildingMax : ℚ) (buildingQuantity : Nat) : ℚ :=
  (quantity / (buildingMax * (buildingQuantity : ℚ))) * 100

/-- Lines 141-147 together on exact numbers: the building count and the
efficiency. -/
def buildingSizing (fuel : Nat) (quantity buildingMax : ℚ) : Option (Nat × ℚ) :=
  (buildingQuantityLoop quantity buildingMax fuel 1).map
    (fun buildingQuantity => (buildingQuantity, efficiencyOf quantity buildingMax buildingQuantity))

/-- Lines 149-156: the loop over the by-products of the active recipe. -/
def accrueByProducts (P : Parser) (quantity : ℚ) :
    List (String × String) → FloatMap → Except Failure FloatMap
  | [], byProducts => .ok byProducts
  | (key, value) :: rest, byProducts =>
    match fractionToFloat P value with
    | .error e => .error e
    | .ok floatVal =>
      if byProducts.Contains key then
        accrueByProducts P quantity rest
          (byProducts.set key (byProducts.get key + floatVal * quantity))
      else
        accrueByProducts P quantity rest (byProducts.set key (floatVal * quantity))

/-- Lines 158-174: append a row when `tableIndex` is -1, else overwrite the
row at `tableIndex`. -/
def upsertRow (table : Table) (tableIndex : Option Nat) (row : Row) : Table :=
  match tableIndex with
  | none => table ++ [row]
  | some i => table.set i row

/-- Lines 117-119: `quantity += (*table)[tableIndex].Quantity` when the item
has a row. -/
def mergeDemand (table : Table) (tableIndex : Option Nat) (quantity : ℚ) : ℚ :=
  match tableIndex with
  | some i => quantity + Table.quantityAt table i
  | none => quantity

/-- Lines 121-127: the raw-material write. -/
def addRaw (rawMaterials : FloatMap) (item : String) (quantity : ℚ) : FloatMap :=
  match rawMaterials.get? item with
  | none => rawMaterials.set item quantity
  | some old => rawMaterials.set item (old + quantity)

/-- Lines 176-178: the loop over the ingredients; `call` is the recursive
call of `buildRecipe`, whose quantity argument is evaluated first. -/
def forIngredients (P : Parser) (call : String → ℚ → State → Except Failure State)
    (quantity : ℚ) : List (String × String) → State → Except Failure State
  | [], st => .ok st
  | (key, value) :: rest, st =>
    match fractionToFloat P value with
    | .error e => .error e
    | .ok ratio =>
      match call key (quantity * ratio) st with
      | .error e => .error e
      | .ok st1 => forIngredients P call quantity rest st1

/-- The method `Recipes.buildRecipe`.  One unit of fuel per nesting level of
the recursion; the sizing loop of a level may use as many tests as that level
has fuel. -/
def buildRecipe (P : Parser) (recipes : Recipes) :
    Nat → String → ℚ → List String → State → Except Failure State
  | 0, _, _, _, _ => .error .outOfFuel
  | fuel + 1, item, quantity, alts, st =>
    let tableIndex := Table.Find st.table item
    let quantity := mergeDemand st.table tableIndex quantity
    match recipes item with
    | none => .ok { st with rawMaterials := addRaw st.rawMaterials item quantity }
    | some recipe0 =>
      let active := substitute recipes alts item recipe0
      match fractionToFloat P active.2.Building.Max with
      | .error e => .error e
      | .ok buildingMax =>
        match buildingSizing (fuel + 1) quantity buildingMax with
        | none => .error .outOfFuel
        | some (buildingQuantity, efficiency) =>
          match accrueByProducts P quantity active.2.ByProducts st.byProducts with
          | .error e => .error e
          | .ok byProducts =>
            let row : Row :=
              ⟨active.1, quantity, active.2.Building.Typ, buildingQuantity, efficiency⟩
            forIngredients P (fun key q s => buildRecipe P recipes fuel key q alts s)
              quantity active.2.Ingredients
              ⟨upsertRow st.table tableIndex row, st.rawMaterials, byProducts⟩

/-- The call `main` makes (lines 243-250): expansion from empty accumulators. -/
def expand (P : Parser) (recipes : Recipes) (fuel : Nat) (item : String) (quantity : ℚ)
    (alts : List String) : Except Failure State :=
  buildRecipe P recipes fuel item quantity alts State.empty

/-! ## binary64 values and int64 counters (the arithmetic of lines 141-147) -/

/-- Worker of `natLog2`: halves `n` until it is below 2. -/
def log2Aux : Nat → Nat → Nat
  | 0, _ => 0
  | fuel + 1, n => if n < 2 then 0 else log2Aux fuel (n / 2) + 1

/-- The position of the leading bit of `n`: `2 ^ natLog2 n <= n < 2 ^ (natLog2 n + 1)`
for `n >= 1`. -/
def natLog2 (n : Nat) : Nat := log2Aux n n

/-- For `x > 0` the exponent `e` with `2 ^ e <= x < 2 ^ (e + 1)`. -/
def log2Floor (x : ℚ) : ℤ :=
  if (2 : ℚ) ^ ((natLog2 x.num.natAbs : ℤ) - (natLog2 x.den : ℤ)) ≤ x then
    (natLog2 x.num.natAbs : ℤ) - (natLog2 x.den : ℤ)
  else (natLog2 x.num.natAbs : ℤ) - (natLog2 x.den : ℤ) - 1

/-- The nearest integer, a tie going to the even neighbour. -/
def roundNearestEven (y : ℚ) : ℤ :=
  if y - ⌊y⌋ < 1 / 2 then ⌊y⌋
  else if 1 / 2 < y - ⌊y⌋ then ⌊y⌋ + 1
  else if ⌊y⌋ % 2 = 0 then ⌊y⌋ else ⌊y⌋ + 1

/-- The binary64 exponent used for a magnitude `x`: that of `x`, and -1022
(the subnormal range) for every smaller magnitude. -/
def binade (x : ℚ) : ℤ := max (log2Floor x) (-1022)

/-- The spacing of the binary64 values around the magnitude `x`: 53 significant
bits. -/
def quantum (x : ℚ) : ℚ := (2 : ℚ) ^ (binade x - 52)

/-- The magnitude `x >= 0` rounded to a multiple of its spacing, to nearest,
ties to even (the IEEE 754 default rounding, which Go uses); a result of
`2 ^ 1024` stands for overflow. -/
def roundMag (x : ℚ) : ℚ := (roundNearestEven (x / quantum x) : ℚ) * quantum x

/-- A `float64`: a finite value as sign and magnitude (so the two zeros are
apart), an infinity with its sign, or NaN. -/
inductive F64 where
  | fin (neg : Bool) (mag : ℚ)
  | inf (neg : Bool)
  | nan
  deriving DecidableEq

/-- The `float64` nearest to the number of sign `neg` and magnitude `x >= 0`;
an infinity when the rounded magnitude leaves the binary64 range. -/
def F64.ofMag (neg : Bool) (x : ℚ) : F64 :=
  if (2 : ℚ) ^ (1024 : ℤ) ≤ roundMag x then .inf neg else .fin neg (roundMag x)

/-- The number a finite `float64` stands for. -/
def F64.signed (neg : Bool) (mag : ℚ) : ℚ := if neg then -mag else mag

/-- The `float64` nearest to a rational number. -/
def F64.ofRat (x : ℚ) : F64 := F64.ofMag (decide (x < 0)) |x|

/-- The conversion `float64(n)` of an integer. -/
def F64.ofInt (n : Int) : F64 := F64.ofRat (n : ℚ)

/-- The `float64` product `a * b`. -/
def F64.mul : F64 → F64 → F64
  | .nan, _ => .nan
  | _, .nan => .nan
  | .inf n1, .inf n2 => .inf (xor n1 n2)
  | .inf n1, .fin n2 m2 => if m2 = 0 then .nan else .inf (xor n1 n2)
  | .fin n1 m1, .inf n2 => if m1 = 0 then .nan else .inf (xor n1 n2)
  | .fin n1 m1, .fin n2 m2 => F64.ofMag (xor n1 n2) (m1 * m2)

/-- The `float64` quotient `a / b`. -/
def F64.div : F64 → F64 → F64
  | .nan, _ => .nan
  | _, .nan => .nan
  | .inf _, .inf _ => .nan
  | .inf n1, .fin n2 _ => .inf (xor n1 n2)
  | .fin n1 _, .inf n2 => .fin (xor n1 n2) 0
  | .fin n1 m1, .fin n2 m2 =>
    if m2 = 0 then (if m1 = 0 then .nan else .inf (xor n1 n2))
    else F64.ofMag (xor n1 n2) (m1 / m2)

/-- The `float64` sum `a + b`. -/
def F64.add : F64 → F64 → F64
  | .nan, _ => .nan
  | _, .nan => .nan
  | .inf n1, .inf n2 => if n1 = n2 then .inf n1 else .nan
  | .inf n1, .fin _ _ => .inf n1
  | .fin _ _, .inf n2 => .inf n2
  | .fin n1 m1, .fin n2 m2 =>
    if F64.signed n1 m1 + F64.signed n2 m2 = 0 then .fin (n1 && n2) 0
    else F64.ofRat (F64.signed n1 m1 + F64.signed n2 m2)

/-- The comparison `a < b` of two `float64`: false when either is NaN. -/
def F64.lt : F64 → F64 → Bool
  | .nan, _ => false
  | _, .nan => false
  | .inf n1, .inf n2 => n1 && !n2
  | .inf n1, .fin _ _ => n1
  | .fin _ _, .inf n2 => !n2
  | .fin n1 m1, .fin n2 m2 => decide (F64.signed n1 m1 < F64.signed n2 m2)

/-- The comparison `a > b`. -/
def F64.gt (a b : F64) : Bool := F64.lt b a

/-- The comparison `a <= b` of two `float64`: false when either is NaN. -/
def F64.le : F64 → F64 → Bool
  | .nan, _ => false
  | _, .nan => false
  | .inf n1, .inf n2 => n1 || !n2
  | .inf n1, .fin _ _ => n1
  | .fin _ _, .inf n2 => !n2
  | .fin n1 m1, .fin n2 m2 => decide (F64.signed n1 m1 ≤ F64.signed n2 m2)

/-- The largest value of a Go `int` on a 64-bit platform. -/
def maxInt64 : Int := 2 ^ 63 - 1

/-- The statement `n++` on a Go `int` of 64 bits: the successor, wrapping from
`2^63 - 1` to `-2^63`. -/
def incr64 (n : Int) : Int := (n + 1 + 2 ^ 63) % 2 ^ 64 - 2 ^ 63

/-- Lines 142-145 on `float64` and `int`: `buildingQuantity` starts at the given
count and is incremented while
`quantity > buildingMax * float64(buildingQuantity)`; each test of the loop
condition uses one unit of fuel. -/
def sizingLoop64 (quantity buildingMax : F64) : Nat → Int → Option Int
  | 0, _ => none
  | fuel + 1, buildingQuantity =>
    if F64.gt quantity (F64.mul buildingMax (F64.ofInt buildingQuantity)) then
      sizingLoop64 quantity buildingMax fuel (incr64 buildingQuantity)
    else some buildingQuantity

/-- Line 147 on `float64`:
`(quantity / (buildingMax*float64(buildingQuantity))) * 100`. -/
def efficiency64 (quantity buildingMax : F64) (buildingQuantity : Int) : F64 :=
  F64.mul (F64.div quantity (F64.mul buildingMax (F64.ofInt buildingQuantity)))
    (F64.fin false 100)

/-- Lines 141-147 on `float64` and `int`: the building count and the
efficiency. -/
def buildingSizing64 (fuel : Nat) (quantity buildingMax : F64) : Option (Int × F64) :=
  (sizingLoop64 quantity buildingMax fuel 1).map
    (fun buildingQuantity => (buildingQuantity, efficiency64 quantity buildingMax buildingQuantity))

/-! ## The expansion on float64 (main.go 14-36, 38-86, 107-181) -/

/-- Ways a run of the `float64` model stops without a value. -/
inductive Stop where
  /-- The `panic(err)` of `fractionToFloat`. -/
  | panic
  /-- The calls nest deeper than the bound given to the model. -/
  | depth
  /-- The sizing loop entered with this quantity and this building maximum
  makes more tests than the budget given to the model. -/
  | loop (quantity buildingMax : F64)
  deriving DecidableEq

/-- Equality of outcomes is decidable, so closed runs can be evaluated. -/
instance decEqOutcome64 {α : Type} [DecidableEq α] : DecidableEq (Except Stop α)
  | .ok a, .ok b => if h : a = b then isTrue (by rw [h]) else isFalse (by intro h1; cases h1; exact h rfl)
  | .error e, .error f =>
    if h : e = f then isTrue (by rw [h]) else isFalse (by intro h1; cases h1; exact h rfl)
  | .ok _, .error _ => isFalse (by intro h; cases h)
  | .error _, .ok _ => isFalse (by intro h; cases h)

/-- The pair `(value, err != nil)` returned by `strconv.ParseFloat(s, 64)`, the
value as a `float64`. -/
abbrev Parser64 := String → F64 × Bool

/-- `strconv.ParseFloat` on plain decimal literals `[+-] digits [. digits]`:
the nearest `float64`, with the sign of the literal; a syntax error with value
0 on every other string. -/
def parseDecimal64 : Parser64 := fun s =>
  let signed : Bool × List Char :=
    match s.data with
    | '-' :: cs => (true, cs)
    | '+' :: cs => (false, cs)
    | cs => (false, cs)
  match scanDecimal signed.2 0 false 0 false with
  | some (mant, frac) => (F64.ofMag signed.1 ((mant : ℚ) / (10 : ℚ) ^ frac), false)
  | none => (.fin false 0, true)

/-- The function `fractionToFloat` on `float64`: the quotient of line 34 is the
`float64` quotient, also for a zero right side. -/
def fractionToFloat64 (P : Parser64) (fraction : String) : Except Stop F64 :=
  match splitSlash fraction with
  | [] => .error .panic -- not reached: Split returns at least one piece
  | [whole] =>
    let (float, err) := P whole
    if err then .error .panic else .ok float
  | left :: right :: _ =>
    let (lhs, _) := P left
    let (rhs, err) := P right
    if err then .error .panic else .ok (F64.div lhs rhs)

/-- The struct `Row` with `float64` and `int` fields. -/
structure Row64 where
  Item : String
  Quantity : F64
  BldgType : String
  BldgQuantity : Int
  Efficiency : F64
  deriving DecidableEq

/-- The slice `Table`. -/
abbrev Table64 := List Row64

/-- A `map[string]float64`: name/value pairs with distinct names, in insertion
order. -/
abbrev FloatMap64 := List (String × F64)

/-- Map read `m[k]` with the comma-ok form: `none` for a missing key. -/
def FloatMap64.get? (m : FloatMap64) (k : String) : Option F64 :=
  match m with
  | [] => none
  | (k0, v0) :: rest => if k0 = k then some v0 else FloatMap64.get? rest k

/-- Map write `m[k] = v`. -/
def FloatMap64.set (m : FloatMap64) (k : String) (v : F64) : FloatMap64 :=
  match m with
  | [] => [(k, v)]
  | (k0, v0) :: rest =>
    if k0 = k then (k, v) :: rest else (k0, v0) :: FloatMap64.set rest k v

/-- The method `ByProducts.Contains` (main.go 47-55). -/
def FloatMap64.Contains (m : FloatMap64) (item : String) : Bool :=
  match m with
  | [] => false
  | (key, _) :: rest => if key = item then true else FloatMap64.Contains rest item

/-- Map read `m[k]` as a value: +0 for a missing key. -/
def FloatMap64.get (m : FloatMap64) (k : String) : F64 :=
  (m.get? k).getD (.fin false 0)

/-- The method `Table.Find` (main.go 78-86) on the `float64` table. -/
def Table64.Find : Table64 → String → Option Nat
  | [], _ => none
  | row :: rest, item =>
    if row.Item = item then some 0 else (Table64.Find rest item).map (· + 1)

/-- The read `(*table)[i].Quantity`; `i` comes from `Table64.Find`, so it is in
range. -/
def Table64.quantityAt (table : Table64) (i : Nat) : F64 :=
  match table.get? i with
  | some row => row.Quantity
  | none => .fin false 0

/-- The three accumulators of `buildRecipe`, with `float64` values. -/
structure State64 where
  table : Table64
  rawMaterials : FloatMap64
  byProducts : FloatMap64
  deriving DecidableEq

/-- The accumulators `main` starts from. -/
def State64.empty : State64 := ⟨[], [], []⟩

/-- Lines 117-119 on `float64`. -/
def mergeDemand64 (table : Table64) (tableIndex : Option Nat) (quantity : F64) : F64 :=
  match tableIndex with
  | some i => F64.add quantity (Table64.quantityAt table i)
  | none => quantity

/-- Lines 121-127 on `float64`. -/
def addRaw64 (rawMaterials : FloatMap64) (item : String) (quantity : F64) : FloatMap64 :=
  match rawMaterials.get? item with
  | none => rawMaterials.set item quantity
  | some old => rawMaterials.set item (F64.add old quantity)

/-- Lines 149-156 on `float64`; the product of line 152 is rounded before it is
added (no fused multiply-add, as on amd64). -/
def accrueByProducts64 (P : Parser64) (quantity : F64) :
    List (String × String) → FloatMap64 → Except Stop FloatMap64
  | [], byProducts => .ok byProducts
  | (key, value) :: rest, byProducts =>
    match fractionToFloat64 P value with
    | .error e => .error e
    | .ok floatVal =>
      if byProducts.Contains key then
        accrueByProducts64 P quantity rest
          (byProducts.set key (F64.add (byProducts.get key) (F64.mul floatVal quantity)))
      else
        accrueByProducts64 P quantity rest (byProducts.set key (F64.mul floatVal quantity))

/-- Lines 158-174 on the `float64` table. -/
def upsertRow64 (table : Table64) (tableIndex : Option Nat) (row : Row64) : Table64 :=
  match tableIndex with
  | none => table ++ [row]
  | some i => table.set i row

/-- Lines 176-178 on `float64`; `call` is the recursive call of `buildRecipe`. -/
def forIngredients64 (P : Parser64) (call : String → F64 → State64 → Except Stop State64)
    (quantity : F64) : List (String × String) → State64 → Except Stop State64
  | [], st => .ok st
  | (key, value) :: rest, st =>
    match fractionToFloat64 P value with
    | .error e => .error e
    | .ok ratio =>
      match call key (F64.mul quantity ratio) st with
      | .error e => .error e
      | .ok st1 => forIngredients64 P call quantity rest st1

/-- The method `Recipes.buildRecipe` on `float64` and `int`, with two budgets
that the program does not have: at most `loopFuel` tests in each sizing loop
(else `Stop.loop`, with the quantity and the maximum of that loop) and at most `depth` nested calls (else `Stop.depth`). -/
def buildRecipe64 (P : Parser64) (recipes : Recipes) (loopFuel : Nat) :
    Nat → String → F64 → List String → State64 → Except Stop State64
  | 0, _, _, _, _ => .error .depth
  | depth + 1, item, quantity, alts, st =>
    let tableIndex := Table64.Find st.table item
    let quantity := mergeDemand64 st.table tableIndex quantity
    match recipes item with
    | none => .ok { st with rawMaterials := addRaw64 st.rawMaterials item quantity }
    | some recipe0 =>
      let active := substitute recipes alts item recipe0
      match fractionToFloat64 P active.2.Building.Max with
      | .error e => .error e
      | .ok buildingMax =>
        match buildingSizing64 loopFuel quantity buildingMax with
        | none => .error (.loop quantity buildingMax)
        | some (buildingQuantity, efficiency) =>
          match accrueByProducts64 P quantity active.2.ByProducts st.byProducts with
          | .error e => .error e
          | .ok byProducts =>
            let row : Row64 :=
              ⟨active.1, quantity, active.2.Building.Typ, buildingQuantity, efficiency⟩
            forIngredients64 P
              (fun key q s => buildRecipe64 P recipes loopFuel depth key q alts s)
              quantity active.2.Ingredients
              ⟨upsertRow64 st.table tableIndex row, st.rawMaterials, byProducts⟩

/-- The call `main` makes (lines 243-250) on `float64`. -/
def expand64 (P : Parser64) (recipes : Recipes) (loopFuel depth : Nat) (item : String)
    (quantity : F64) (alts : List String) : Except Stop State64 :=
  buildRecipe64 P recipes loopFuel depth item quantity alts State64.empty

/-! ## Example catalogs -/

/-- The catalog of the Widget example: Widget needs 2 Bolt and is made in an
Assembler of maximum 5; Bolt has no recipe. -/
def widgetCatalog : Recipes := fun k =>
  if k = "Widget" then some ⟨[("Bolt", "2")], ⟨"Assembler", "5"⟩, [], []⟩ else none

/-- A recipe made in a Constructor of maximum 10, without by-products. -/
def plainRecipe (ingredients : List (String × String)) (alts : List String) : Recipe :=
  ⟨ingredients, ⟨"Constructor", "10"⟩, alts, []⟩

/-- A catalog in which B is reached along two paths, both through A:
X needs 1 A and 1 Y, Y needs 1 A, A needs 1 B, B needs nothing. -/
def diamondCatalog : Recipes := fun k =>
  if k = "X" then some (plainRecipe [("A", "1"), ("Y", "1")] [])
  else if k = "Y" then some (plainRecipe [("A", "1")] [])
  else if k = "A" then some (plainRecipe [("B", "1")] [])
  else if k = "B" then some (plainRecipe [] [])
  else none

/-- A rank for the diamond catalog that falls along every ingredient edge: the
length of the longest ingredient path below the item. -/
def diamondRank : String → Nat := fun k =>
  if k = "X" then 3 else if k = "Y" then 2 else if k = "A" then 1 else 0

/-- A catalog in which the raw item R is reached through A along two paths of
different weight: X has the ingredients `xIngredients` (1 A and 1 Y, in the
order given), Y needs 2 A, A needs 1 R, R has no recipe. -/
def weightedCatalog (xIngredients : List (String × String)) : Recipes := fun k =>
  if k = "X" then some (plainRecipe xIngredients [])
  else if k = "Y" then some (plainRecipe [("A", "2")] [])
  else if k = "A" then some (plainRecipe [("R", "1")] [])
  else none

/-- A catalog with an alternate: X needs 1 A and 1 Y, Y needs 1 A, A lists B
as an alternate, B needs nothing. -/
def altCatalog : Recipes := fun k =>
  if k = "X" then some (plainRecipe [("A", "1"), ("Y", "1")] [])
  else if k = "Y" then some (plainRecipe [("A", "1")] [])
  else if k = "A" then some (plainRecipe [] ["B"])
  else if k = "B" then some (plainRecipe [] [])
  else none

/-- A catalog with two alternates of one item: A (Smelter) lists B and C as
alternates; B (Foundry) and C (Refinery) list none. -/
def twoAltCatalog : Recipes := fun k =>
  if k = "A" then some ⟨[], ⟨"Smelter", "10"⟩, ["B", "C"], []⟩
  else if k = "B" then some ⟨[], ⟨"Foundry", "10"⟩, [], []⟩
  else if k = "C" then some ⟨[], ⟨"Refinery", "10"⟩, [], []⟩
  else none

/-- A catalog in which an alternate lists a further alternate: A (Smelter)
lists B and C, B (Foundry) lists C, C (Refinery) lists none. -/
def chainAltCatalog : Recipes := fun k =>
  if k = "A" then some ⟨[], ⟨"Smelter", "10"⟩, ["B", "C"], []⟩
  else if k = "B" then some ⟨[], ⟨"Foundry", "10"⟩, ["C"], []⟩
  else if k = "C" then some ⟨[], ⟨"Refinery", "10"⟩, [], []⟩
  else none

/-- A catalog with a by-product on an item reached twice: X needs 1 A and
1 Y, Y needs 1 A, A needs nothing and yields 1 W per unit. -/
def byProductCatalog : Recipes := fun k =>
  if k = "X" then some (plainRecipe [("A", "1"), ("Y", "1")] [])
  else if k = "Y" then some (plainRecipe [("A", "1")] [])
  else if k = "A" then some ⟨[], ⟨"Constructor", "10"⟩, [], [("W", "1")]⟩
  else none

/-- A catalog of one item: T is made in a Constructor of maximum 1 and needs
nothing. -/
def unitCatalog : Recipes := fun k =>
  if k = "T" then some ⟨[], ⟨"Constructor", "1"⟩, [], []⟩ else none

/-! ## Demand along ingredient paths -/

/-- The total demand for `item` over every ingredient path that starts at
`cur` with demand `q`: `q` itself when `cur` is the item, plus the demand over
the paths that continue through each ingredient of `cur` with `q` times the
ingredient ratio.  Paths longer than the fuel are cut off. -/
def pathDemand (P : Parser) (recipes : Recipes) : Nat → String → ℚ → String → ℚ
  | 0, _, _, _ => 0
  | fuel + 1, cur, q, item =>
    (if cur = item then q else 0) +
      match recipes cur with
      | none => 0
      | some recipe =>
        (recipe.Ingredients.map (fun kv =>
          match fractionToFloat P kv.2 with
          | .ok ratio => pathDemand P recipes fuel kv.1 (q * ratio) item
          | .error _ => 0)).sum

/-! ## The closed form of the building count -/

/-- The closed form the specification gives for the building count:
`ceil(quantity / max)` with a floor of 1. -/
def closedFormCount (quantity buildingMax : ℚ) : Nat :=
  max 1 ⌈quantity / buildingMax⌉₊

/-! ## Consistency of a row with the Catalog -/

/-- A row agrees with the Catalog entry of its own item: the item has an
entry, the building type is the entry's, the building count is the least
positive `n` with `max * n >= quantity` for the entry's building maximum, and
the efficiency is `quantity / (max * count) * 100`. -/
def RowConsistent (P : Parser) (recipes : Recipes) (row : Row) : Prop :=
  ∃ (r : Recipe) (M : ℚ), recipes row.Item = some r ∧ row.BldgType = r.Building.Typ ∧
    fractionToFloat P r.Building.Max = .ok M ∧
    0 < row.BldgQuantity ∧ row.Quantity ≤ M * (row.BldgQuantity : ℚ) ∧
    (∀ m : Nat, 0 < m → m < row.BldgQuantity → ¬ (row.Quantity ≤ M * (m : ℚ))) ∧
    row.Efficiency = row.Quantity / (M * (row.BldgQuantity : ℚ)) * 100

/-! ## A catalog without by-products -/

/-- The recipe with its by-products removed. -/
def Recipe.withoutByProducts (r : Recipe) : Recipe :=
  ⟨r.Ingredients, r.Building, r.Alts, []⟩

/-- The catalog with the by-products of every recipe removed. -/
def stripByProducts (recipes : Recipes) : Recipes := fun k =>
  (recipes k).map Recipe.withoutByProducts

/-! ## The sizing loop -/

/-- What a finished run of the loop says about its result: it is not below
the start, the loop condition is false at it and true at every count passed. -/
theorem buildingQuantityLoop_some (q M : ℚ) :
    ∀ (fuel n k : Nat), buildingQuantityLoop q M fuel n = some k →
      n ≤ k ∧ ¬ (q > M * (k : ℚ)) ∧ ∀ m : Nat, n ≤ m → m < k → q > M * (m : ℚ) := by
  intro fuel
  induction fuel with
  | zero => intro n k h; simp [buildingQuantityLoop] at h
  | succ fuel ih =>
    intro n k h
    unfold buildingQuantityLoop at h
    by_cases hc : q > M * (n : ℚ)
    · rw [if_pos hc] at h
      obtain ⟨h1, h2, h3⟩ := ih (n + 1) k h
      refine ⟨by omega, h2, ?_⟩
      intro m hm hk
      rcases Nat.eq_or_lt_of_le hm with h4 | h4
      · subst h4; exact hc
      · exact h3 m h4 hk
    · rw [if_neg hc] at h
      cases h
      exact ⟨le_refl _, hc, fun m hm hk => absurd hk (by omega)⟩

/-- The loop finishes once the fuel exceeds the distance to a count at which
the loop condition is false. -/
theorem buildingQuantityLoop_terminates (q M : ℚ) :
    ∀ (d n : Nat), ¬ (q > M * ((n + d : Nat) : ℚ)) →
      ∀ fuel, d < fuel → ∃ k, buildingQuantityLoop q M fuel n = some k := by
  intro d
  induction d with
  | zero =>
    intro n h fuel hf
    obtain ⟨f, rfl⟩ : ∃ f, fuel = f + 1 := ⟨fuel - 1, by omega⟩
    exact ⟨n, by unfold buildingQuantityLoop; rw [if_neg (by simpa using h)]⟩
  | succ d ih =>
    intro n h fuel hf
    obtain ⟨f, rfl⟩ : ∃ f, fuel = f + 1 := ⟨fuel - 1, by omega⟩
    unfold buildingQuantityLoop
    by_cases hc : q > M * (n : ℚ)
    · rw [if_pos hc]
      exact ih (n + 1) (by rwa [show n + 1 + d = n + (d + 1) by omega]) f (by omega)
    · rw [if_neg hc]; exact ⟨n, rfl⟩

/-- With a positive maximum some count makes the loop condition false. -/
theorem exists_count_covering (q M : ℚ) (hM : 0 < M) :
    ∃ d : Nat, ¬ (q > M * ((1 + d : Nat) : ℚ)) := by
  obtain ⟨N, hN⟩ := exists_nat_gt (q / M)
  refine ⟨N, ?_⟩
  have h1 : q < M * (N : ℚ) := by
    have := (div_lt_iff₀ hM).mp hN
    linarith
  have h2 : M * (N : ℚ) ≤ M * ((1 + N : Nat) : ℚ) := by
    apply mul_le_mul_of_nonneg_left _ hM.le
    push_cast; linarith
  exact not_lt.mpr (by linarith)

/-- The sizing of lines 141-147 finishes for a positive maximum and returns
the least positive count that covers the demand, with the efficiency of
line 147. -/
theorem buildingSizing_spec (q M : ℚ) (hM : 0 < M) :
    ∃ N : Nat, ∀ fuel, N ≤ fuel → ∃ n : Nat,
      buildingSizing fuel q M = some (n, efficiencyOf q M n) ∧
      0 < n ∧ q ≤ M * (n : ℚ) ∧ ∀ m : Nat, 0 < m → m < n → ¬ (q ≤ M * (m : ℚ)) := by
  obtain ⟨d, hd⟩ := exists_count_covering q M hM
  refine ⟨d + 1, fun fuel hf => ?_⟩
  obtain ⟨k, hk⟩ := buildingQuantityLoop_terminates q M d 1 hd fuel (by omega)
  obtain ⟨h1, h2, h3⟩ := buildingQuantityLoop_some q M fuel 1 k hk
  refine ⟨k, by simp [buildingSizing, hk], by omega, not_lt.mp h2, ?_⟩
  intro m hm hmk
  exact not_le.mpr (h3 m (by omega) hmk)

/-! ## Maps -/

theorem FloatMap.get?_set_same (m : FloatMap) (k : String) (v : ℚ) :
    (m.set k v).get? k = some v := by
  induction m with
  | nil => simp [FloatMap.set, FloatMap.get?]
  | cons hd tl ih =>
    obtain ⟨k0, v0⟩ := hd
    by_cases h : k0 = k
    · simp [FloatMap.set, FloatMap.get?, h]
    · simp [FloatMap.set, FloatMap.get?, h, ih]

theorem FloatMap.get?_set_other (m : FloatMap) (k k1 : String) (v : ℚ) (hne : k1 ≠ k) :
    (m.set k v).get? k1 = m.get? k1 := by
  induction m with
  | nil => simp [FloatMap.set, FloatMap.get?, Ne.symm hne]
  | cons hd tl ih =>
    obtain ⟨k0, v0⟩ := hd
    by_cases h : k0 = k
    · subst h
      simp [FloatMap.set, FloatMap.get?, Ne.symm hne]
    · by_cases h1 : k0 = k1
      · subst h1
        simp [FloatMap.set, FloatMap.get?, h]
      · simp [FloatMap.set, FloatMap.get?, h, h1, ih]

theorem get?_addRaw_same (m : FloatMap) (k : String) (v : ℚ) :
    (addRaw m k v).get? k = some (m.get k + v) := by
  unfold addRaw FloatMap.get
  cases h : m.get? k with
  | none => simp [FloatMap.get?_set_same]
  | some old => simp [FloatMap.get?_set_same]

theorem get?_addRaw_other (m : FloatMap) (k k1 : String) (v : ℚ) (hne : k1 ≠ k) :
    (addRaw m k v).get? k1 = m.get? k1 := by
  unfold addRaw
  cases h : m.get? k with
  | none => simp [FloatMap.get?_set_other _ _ _ _ hne]
  | some old => simp [FloatMap.get?_set_other _ _ _ _ hne]

/-! ## Single steps of buildRecipe -/

/-- The raw-material return of lines 121-130 for an item without a row. -/
theorem buildRecipe_raw (P : Parser) (recipes : Recipes) (fuel : Nat) (item : String) (q : ℚ)
    (alts : List String) (st : State) (hraw : recipes item = none)
    (hfind : Table.Find st.table item = none) :
    buildRecipe P recipes (fuel + 1) item q alts st =
      .ok ⟨st.table, addRaw st.rawMaterials item q, st.byProducts⟩ := by
  simp [buildRecipe, hraw, hfind, mergeDemand]

/-- The path of lines 132-178 for an item with a Catalog entry, once the
substitution, the parse of the building maximum, the sizing and the
by-products loop have given their results: the row of the active item is
written at the index found for the requested item, and the ingredients of the
active recipe are expanded with the merged quantity. -/
theorem buildRecipe_catalogued (P : Parser) (recipes : Recipes) (fuel : Nat) (item : String)
    (q : ℚ) (alts : List String) (st : State) (r0 : Recipe) (active : String × Recipe)
    (M : ℚ) (n : Nat) (e : ℚ) (bp : FloatMap)
    (hrec : recipes item = some r0)
    (hsub : substitute recipes alts item r0 = active)
    (hmax : fractionToFloat P active.2.Building.Max = .ok M)
    (hsz : buildingSizing (fuel + 1)
      (mergeDemand st.table (Table.Find st.table item) q) M = some (n, e))
    (hbp : accrueByProducts P (mergeDemand st.table (Table.Find st.table item) q)
      active.2.ByProducts st.byProducts = .ok bp) :
    buildRecipe P recipes (fuel + 1) item q alts st =
      forIngredients P (fun key q1 s => buildRecipe P recipes fuel key q1 alts s)
        (mergeDemand st.table (Table.Find st.table item) q) active.2.Ingredients
        ⟨upsertRow st.table (Table.Find st.table item)
          ⟨active.1, mergeDemand st.table (Table.Find st.table item) q,
            active.2.Building.Typ, n, e⟩, st.rawMaterials, bp⟩ := by
  simp only [buildRecipe, hrec, hsub, hmax, hsz, hbp]

/-- The by-products loop finishes when every yield string parses. -/
theorem accrueByProducts_ok (P : Parser) (q : ℚ) :
    ∀ (bps : List (String × String)) (acc : FloatMap),
      (∀ kv ∈ bps, ∃ ρ, fractionToFloat P kv.2 = .ok ρ) →
      ∃ out, accrueByProducts P q bps acc = .ok out := by
  intro bps
  induction bps with
  | nil => intro acc _; exact ⟨acc, rfl⟩
  | cons hd tl ih =>
    intro acc h
    obtain ⟨key, value⟩ := hd
    obtain ⟨ρ, hρ⟩ := h (key, value) (List.mem_cons_self _ _)
    have htl : ∀ kv ∈ tl, ∃ ρ, fractionToFloat P kv.2 = .ok ρ :=
      fun kv hkv => h kv (List.mem_cons_of_mem _ hkv)
    simp only [accrueByProducts, hρ]
    split
    · exact ih _ htl
    · exact ih _ htl

/-- The ingredients loop over ingredients that are all raw and have no row:
the table and the by-products stay, and the raw materials receive `q` times
the ratio under each ingredient name. -/
theorem forIngredients_raw (P : Parser) (recipes : Recipes) (fuel : Nat) (q : ℚ)
    (alts : List String) :
    ∀ (ings : List (String × String)) (st : State),
      (∀ kv ∈ ings, recipes kv.1 = none ∧ Table.Find st.table kv.1 = none ∧
        ∃ ρ, fractionToFloat P kv.2 = .ok ρ) →
      ∃ rm, forIngredients P (fun key q1 s => buildRecipe P recipes (fuel + 1) key q1 alts s)
          q ings st = .ok ⟨st.table, rm, st.byProducts⟩ ∧
        (∀ k, k ∉ ings.map Prod.fst → rm.get? k = st.rawMaterials.get? k) ∧
        (∀ k, k ∈ ings.map Prod.fst → rm.get? k ≠ none) ∧
        ((ings.map Prod.fst).Nodup → ∀ k v, (k, v) ∈ ings → st.rawMaterials.get? k = none →
          ∃ ρ, fractionToFloat P v = .ok ρ ∧ rm.get? k = some (q * ρ)) := by
  intro ings
  induction ings with
  | nil =>
    intro st _
    exact ⟨st.rawMaterials, rfl, fun _ _ => rfl, fun k hk => by simp at hk,
      fun _ k v hkv => by simp at hkv⟩
  | cons hd tl ih =>
    intro st h
    obtain ⟨key, value⟩ := hd
    obtain ⟨hraw, hfind, ρ, hρ⟩ := h (key, value) (List.mem_cons_self _ _)
    obtain ⟨rm, hrun, hout, hin, hval⟩ :=
      ih ⟨st.table, addRaw st.rawMaterials key (q * ρ), st.byProducts⟩
        (fun kv hkv => h kv (List.mem_cons_of_mem _ hkv))
    refine ⟨rm, ?_, ?_, ?_, ?_⟩
    · simp only [forIngredients, hρ, buildRecipe_raw P recipes fuel key (q * ρ) alts st hraw hfind]
      exact hrun
    · intro k hk
      simp only [List.map_cons, List.mem_cons, not_or] at hk
      rw [hout k hk.2]
      exact get?_addRaw_other _ _ _ _ hk.1
    · intro k hk
      by_cases hk1 : k ∈ tl.map Prod.fst
      · exact hin k hk1
      · simp only [List.map_cons, List.mem_cons] at hk
        rcases hk with hk | hk
        · subst hk
          rw [hout k hk1]
          simp [get?_addRaw_same]
        · exact absurd hk hk1
    · intro hnd k v hkv hnone
      simp only [List.map_cons, List.nodup_cons] at hnd
      simp only [List.mem_cons, Prod.mk.injEq] at hkv
      rcases hkv with ⟨hk, hv⟩ | hkv
      · subst hk; subst hv
        refine ⟨ρ, hρ, ?_⟩
        rw [hout k hnd.1]
        simp [get?_addRaw_same, FloatMap.get, hnone]
      · have hk1 : k ∈ tl.map Prod.fst := List.mem_map.mpr ⟨(k, v), hkv, rfl⟩
        have hne : k ≠ key := fun e => hnd.1 (e ▸ hk1)
        exact hval hnd.2 k v hkv (by
          show (addRaw st.rawMaterials key (q * ρ)).get? k = none
          rw [get?_addRaw_other _ _ _ _ hne]; exact hnone)

/-! ## Alternate substitution -/

/-- The inner loop of lines 133-138 for one requested name. -/
theorem inner_alt_loop {α : Type} (a : String) (x : α) :
    ∀ (l : List String) (acc : α),
      l.foldl (fun acc altB => if a = altB then x else acc) acc = if a ∈ l then x else acc := by
  intro l
  induction l with
  | nil => intro acc; simp
  | cons b tl ih =>
    intro acc
    rw [List.foldl_cons, ih]
    by_cases hab : a = b
    · subst hab; simp
    · by_cases hat : a ∈ tl
      · simp [hat]
      · simp [hab, hat]

/-- One outer step of lines 132-139. -/
theorem substitute_cons (recipes : Recipes) (a : String) (rest : List String) (item : String)
    (recipe : Recipe) :
    substitute recipes (a :: rest) item recipe =
      if a ∈ recipe.Alts then
        substitute recipes rest a ((recipes a).getD Recipe.zero)
      else substitute recipes rest item recipe := by
  unfold substitute
  rw [List.foldl_cons, inner_alt_loop]
  split <;> rfl

theorem substitute_nil (recipes : Recipes) (item : String) (recipe : Recipe) :
    substitute recipes [] item recipe = (item, recipe) := rfl

/-- Requested names that the active recipe does not list change nothing. -/
theorem substitute_no_match (recipes : Recipes) :
    ∀ (alts : List String) (item : String) (recipe : Recipe),
      (∀ a ∈ alts, a ∉ recipe.Alts) → substitute recipes alts item recipe = (item, recipe) := by
  intro alts
  induction alts with
  | nil => intro item recipe _; rfl
  | cons a rest ih =>
    intro item recipe h
    rw [substitute_cons, if_neg (h a (List.mem_cons_self _ _))]
    exact ih item recipe (fun b hb => h b (List.mem_cons_of_mem _ hb))

theorem substitute_append (recipes : Recipes) (l1 l2 : List String) (item : String)
    (recipe : Recipe) :
    substitute recipes (l1 ++ l2) item recipe =
      substitute recipes l2 (substitute recipes l1 item recipe).1
        (substitute recipes l1 item recipe).2 := by
  unfold substitute
  rw [List.foldl_append]

/-- A call of `buildRecipe` with requested names that no Catalog recipe lists
runs as the call with no requested names. -/
theorem buildRecipe_unmatched_alts (P : Parser) (recipes : Recipes) (alts : List String)
    (h : ∀ k r, recipes k = some r → ∀ a ∈ alts, a ∉ r.Alts) :
    ∀ (fuel : Nat) (item : String) (q : ℚ) (st : State),
      buildRecipe P recipes fuel item q alts st = buildRecipe P recipes fuel item q [] st := by
  intro fuel
  induction fuel with
  | zero => intro item q st; rfl
  | succ fuel ih =>
    intro item q st
    have hcall : (fun key q1 s => buildRecipe P recipes fuel key q1 alts s) =
        (fun key q1 s => buildRecipe P recipes fuel key q1 [] s) := by
      funext key q1 s; exact ih key q1 s
    simp only [buildRecipe, hcall]
    cases hrec : recipes item with
    | none => rfl
    | some recipe0 =>
      simp only [substitute_no_match recipes alts item recipe0 (h item recipe0 hrec),
        substitute_nil]

/-! ## fractionToFloat -/

theorem splitSlashAux_no_slash :
    ∀ (cs cur : List Char), '/' ∉ cs → splitSlashAux cs cur = [String.mk (cur.reverse ++ cs)] := by
  intro cs
  induction cs with
  | nil => intro cur _; simp [splitSlashAux]
  | cons c tl ih =>
    intro cur h
    simp only [List.mem_cons, not_or] at h
    simp only [splitSlashAux, if_neg (Ne.symm h.1)]
    rw [ih (c :: cur) h.2]
    simp

theorem splitSlashAux_at_slash :
    ∀ (l cur rest : List Char), '/' ∉ l →
      splitSlashAux (l ++ '/' :: rest) cur =
        String.mk (cur.reverse ++ l) :: splitSlashAux rest [] := by
  intro l
  induction l with
  | nil => intro cur rest _; simp [splitSlashAux]
  | cons c tl ih =>
    intro cur rest h
    simp only [List.mem_cons, not_or] at h
    have hstep : splitSlashAux (c :: (tl ++ '/' :: rest)) cur =
        splitSlashAux (tl ++ '/' :: rest) (c :: cur) := by
      simp only [splitSlashAux, if_neg (Ne.symm h.1)]
    rw [List.cons_append, hstep, ih (c :: cur) rest h.2]
    simp

/-- A string without separator is its own single piece. -/
theorem splitSlash_whole (s : String) (h : '/' ∉ s.data) : splitSlash s = [s] := by
  unfold splitSlash
  rw [splitSlashAux_no_slash s.data [] h]
  simp

/-- A string with exactly one separator splits into its two sides. -/
theorem splitSlash_two_sided (l r : String) (hl : '/' ∉ l.data) (hr : '/' ∉ r.data) :
    splitSlash (l ++ "/" ++ r) = [l, r] := by
  unfold splitSlash
  have hdata : (l ++ "/" ++ r).data = l.data ++ '/' :: r.data := by
    simp [String.data_append]
  rw [hdata, splitSlashAux_at_slash l.data [] r.data hl, splitSlashAux_no_slash r.data [] hr]
  simp

/-- What `fractionToFloat` does on a string with exactly one separator: only
the outcome of parsing the right side is tested. -/
theorem fractionToFloat_two_sided (P : Parser) (l r : String)
    (hl : '/' ∉ l.data) (hr : '/' ∉ r.data) :
    fractionToFloat P (l ++ "/" ++ r) =
      if (P r).2 then .error .parseError
      else if (P r).1 = 0 then .error .notFinite
      else .ok ((P l).1 / (P r).1) := by
  unfold fractionToFloat
  rw [splitSlash_two_sided l r hl hr]

/-! ## Table.Find -/

/-- `Table.Find` returns -1 exactly when no row has the item. -/
theorem Table.Find_eq_none_iff (table : Table) (item : String) :
    Table.Find table item = none ↔ ∀ row ∈ table, row.Item ≠ item := by
  induction table with
  | nil => simp [Table.Find]
  | cons hd tl ih =>
    by_cases h : hd.Item = item
    · simp [Table.Find, h]
    · simp [Table.Find, h, ih]

/-- The index `Table.Find` returns holds a row of the item, and no earlier row
has the item. -/
theorem Table.Find_eq_some (item : String) :
    ∀ (table : Table) (i : Nat), Table.Find table item = some i →
      (∃ row, table.get? i = some row ∧ row.Item = item) ∧
      ∀ j row, j < i → table.get? j = some row → row.Item ≠ item := by
  intro table
  induction table with
  | nil => intro i h; simp [Table.Find] at h
  | cons hd tl ih =>
    intro i h
    by_cases hc : hd.Item = item
    · simp only [Table.Find, if_pos hc, Option.some.injEq] at h
      subst h
      exact ⟨⟨hd, rfl, hc⟩, fun j row hj => absurd hj (Nat.not_lt_zero j)⟩
    · simp only [Table.Find, if_neg hc, Option.map_eq_some'] at h
      obtain ⟨i0, hi0, rfl⟩ := h
      obtain ⟨⟨row, hrow, hitem⟩, hfirst⟩ := ih i0 hi0
      refine ⟨⟨row, by simpa using hrow, hitem⟩, ?_⟩
      intro j row1 hj hget
      cases j with
      | zero =>
        simp only [List.get?_cons_zero, Option.some.injEq] at hget
        subst hget; exact hc
      | succ j => exact hfirst j row1 (by omega) (by simpa using hget)

/-! ## Induction over completed calls -/

/-- A relation between the accumulators before and after that holds across
every call of the ingredients loop holds across the loop. -/
theorem forIngredients_rel (P : Parser) (call : String → ℚ → State → Except Failure State)
    (R : State → State → Prop) (hrefl : ∀ s, R s s)
    (htrans : ∀ a b c, R a b → R b c → R a c) (q : ℚ) :
    ∀ (ings : List (String × String)) (st st1 : State),
      (∀ kv ∈ ings, ∀ q1 s s1, call kv.1 q1 s = .ok s1 → R s s1) →
      forIngredients P call q ings st = .ok st1 → R st st1 := by
  intro ings
  induction ings with
  | nil =>
    intro st st1 _ h
    simp only [forIngredients, Except.ok.injEq] at h
    subst h; exact hrefl st
  | cons hd tl ih =>
    intro st st1 hcall h
    obtain ⟨key, value⟩ := hd
    simp only [forIngredients] at h
    split at h
    · cases h
    · split at h
      · cases h
      · rename_i ratio _ mid hmid
        exact htrans st mid st1
          (hcall (key, value) (List.mem_cons_self _ _) _ st mid hmid)
          (ih mid st1 (fun kv hkv => hcall kv (List.mem_cons_of_mem _ hkv)) h)

/-- Induction over a completed call of `buildRecipe`.  `A` is a set of items
closed under the ingredients of the activated recipes; a reflexive and
transitive relation `R` that holds across the raw-material write and across
the row and by-product write of every call on an item of `A` holds between the
accumulators before and after every completed call on an item of `A`. -/
theorem buildRecipe_rel (P : Parser) (recipes : Recipes) (alts : List String)
    (A : String → Prop) (R : State → State → Prop)
    (hrefl : ∀ s, R s s) (htrans : ∀ a b c, R a b → R b c → R a c)
    (hclosed : ∀ item r0, A item → recipes item = some r0 →
      ∀ kv ∈ (substitute recipes alts item r0).2.Ingredients, A kv.1)
    (hraw : ∀ item q st, A item → recipes item = none →
      R st ⟨st.table,
        addRaw st.rawMaterials item (mergeDemand st.table (Table.Find st.table item) q),
        st.byProducts⟩)
    (hrow : ∀ item q st r0 M L n e bp, A item → recipes item = some r0 →
      fractionToFloat P (substitute recipes alts item r0).2.Building.Max = .ok M →
      buildingSizing L (mergeDemand st.table (Table.Find st.table item) q) M = some (n, e) →
      accrueByProducts P (mergeDemand st.table (Table.Find st.table item) q)
        (substitute recipes alts item r0).2.ByProducts st.byProducts = .ok bp →
      R st ⟨upsertRow st.table (Table.Find st.table item)
        ⟨(substitute recipes alts item r0).1, mergeDemand st.table (Table.Find st.table item) q,
          (substitute recipes alts item r0).2.Building.Typ, n, e⟩, st.rawMaterials, bp⟩) :
    ∀ (fuel : Nat) (item : String) (q : ℚ) (st st1 : State), A item →
      buildRecipe P recipes fuel item q alts st = .ok st1 → R st st1 := by
  intro fuel
  induction fuel with
  | zero => intro item q st st1 _ h; simp [buildRecipe] at h
  | succ fuel ih =>
    intro item q st st1 hA h
    simp only [buildRecipe] at h
    split at h
    · rename_i hnone
      simp only [Except.ok.injEq] at h
      subst h
      exact hraw item q st hA hnone
    · rename_i r0 hsome
      split at h
      · cases h
      · rename_i M hM
        split at h
        · cases h
        · rename_i n e hsz
          split at h
          · cases h
          · rename_i bp hbp
            refine htrans _ _ _ (hrow item q st r0 M (fuel + 1) n e bp hA hsome hM hsz hbp) ?_
            refine forIngredients_rel P _ R hrefl htrans _ _ _ _ ?_ h
            intro kv hkv q1 s s1 hcall
            exact ih kv.1 q1 s s1 (hclosed item r0 hA hsome kv hkv) hcall

/-! ## The row write -/

/-- Overwriting the row found for an item with a row of the same item keeps
the sequence of item names. -/
theorem set_found_names (item : String) (row : Row) (hitem : row.Item = item) :
    ∀ (table : Table) (i : Nat), Table.Find table item = some i →
      (table.set i row).map (fun r => r.Item) = table.map (fun r => r.Item) := by
  intro table
  induction table with
  | nil => intro i h; simp [Table.Find] at h
  | cons hd tl ih =>
    intro i h
    by_cases hc : hd.Item = item
    · simp only [Table.Find, if_pos hc, Option.some.injEq] at h
      subst h
      simp [hitem, hc]
    · simp only [Table.Find, if_neg hc, Option.map_eq_some'] at h
      obtain ⟨i0, hi0, rfl⟩ := h
      simp [ih i0 hi0]

/-- The row write of lines 158-174 with a row of the requested item keeps the
item names already in the table as a prefix. -/
theorem upsertRow_names_prefix (table : Table) (item : String) (row : Row)
    (hitem : row.Item = item) :
    table.map (fun r => r.Item) <+:
      (upsertRow table (Table.Find table item) row).map (fun r => r.Item) := by
  cases hfind : Table.Find table item with
  | none =>
    simp only [upsertRow, List.map_append]
    exact List.prefix_append _ _
  | some i =>
    simp only [upsertRow]
    rw [set_found_names item row hitem table i hfind]

/-! ## Rows and the Catalog -/

/-- What a finished sizing says about the count and the efficiency. -/
theorem buildingSizing_some (L : Nat) (q M : ℚ) (n : Nat) (e : ℚ)
    (h : buildingSizing L q M = some (n, e)) :
    0 < n ∧ q ≤ M * (n : ℚ) ∧ (∀ m : Nat, 0 < m → m < n → ¬ (q ≤ M * (m : ℚ))) ∧
      e = q / (M * (n : ℚ)) * 100 := by
  unfold buildingSizing at h
  cases hl : buildingQuantityLoop q M L 1 with
  | none => rw [hl] at h; simp at h
  | some k =>
    rw [hl] at h
    simp only [Option.map_some', Option.some.injEq, Prod.mk.injEq] at h
    obtain ⟨rfl, rfl⟩ := h
    obtain ⟨h1, h2, h3⟩ := buildingQuantityLoop_some q M L 1 k hl
    exact ⟨by omega, not_lt.mp h2, fun m hm hmk => not_le.mpr (h3 m (by omega) hmk), rfl⟩

/-- The building maximum of the zero-value recipe is the empty string, which
does not parse when the parser rejects the empty string. -/
theorem fractionToFloat_zero_recipe (P : Parser) (hempty : (P "").2 = true) (M : ℚ) :
    fractionToFloat P Recipe.zero.Building.Max ≠ .ok M := by
  have hsplit : splitSlash Recipe.zero.Building.Max = [""] := by decide
  unfold fractionToFloat
  rw [hsplit]
  simp [hempty]

/-- After lines 132-139 the active recipe is the Catalog entry of the active
item, or the zero value (when a matched alternate has no Catalog entry). -/
theorem substitute_entry (recipes : Recipes) :
    ∀ (alts : List String) (item : String) (r : Recipe),
      (recipes item = some r ∨ r = Recipe.zero) →
      recipes (substitute recipes alts item r).1 = some (substitute recipes alts item r).2 ∨
        (substitute recipes alts item r).2 = Recipe.zero := by
  intro alts
  induction alts with
  | nil => intro item r h; exact h
  | cons a rest ih =>
    intro item r h
    rw [substitute_cons]
    split
    · apply ih
      cases hra : recipes a with
      | none => right; rfl
      | some x => left; rfl
    · exact ih item r h

/-- When the building maximum of the active recipe parses, the active recipe
is the Catalog entry of the active item. -/
theorem active_is_entry (P : Parser) (recipes : Recipes) (hempty : (P "").2 = true)
    (alts : List String) (item : String) (r0 : Recipe) (M : ℚ)
    (hrec : recipes item = some r0)
    (hmax : fractionToFloat P (substitute recipes alts item r0).2.Building.Max = .ok M) :
    recipes (substitute recipes alts item r0).1 = some (substitute recipes alts item r0).2 := by
  rcases substitute_entry recipes alts item r0 (Or.inl hrec) with h | h
  · exact h
  · rw [h] at hmax
    exact absurd hmax (fractionToFloat_zero_recipe P hempty M)

/-- The rows after the row write are the rows before it and the row written. -/
theorem mem_upsertRow (table : Table) (idx : Option Nat) (row x : Row)
    (h : x ∈ upsertRow table idx row) : x ∈ table ∨ x = row := by
  cases idx with
  | none =>
    simp only [upsertRow, List.mem_append, List.mem_singleton] at h
    exact h
  | some i => exact List.mem_or_eq_of_mem_set h

/-- A key of the Raw Materials after the raw-material write is the item
written or was a key before. -/
theorem get?_addRaw_ne_none (m : FloatMap) (item k : String) (v : ℚ)
    (h : (addRaw m item v).get? k ≠ none) : k = item ∨ m.get? k ≠ none := by
  by_cases hk : k = item
  · exact Or.inl hk
  · right
    rwa [get?_addRaw_other _ _ _ _ hk] at h

/-! ## Rows that a call leaves alone -/

theorem get?_lt_length (table : Table) (j : Nat) (row : Row) (h : table.get? j = some row) :
    j < table.length := by
  by_contra hc
  rw [List.get?_eq_none.mpr (by omega)] at h
  cases h

/-- The row write for an item keeps every row of another item. -/
theorem upsertRow_keeps_other (table : Table) (item : String) (new row : Row) (j : Nat)
    (hget : table.get? j = some row) (hne : row.Item ≠ item) :
    (upsertRow table (Table.Find table item) new).get? j = some row := by
  have hj := get?_lt_length table j row hget
  cases hfind : Table.Find table item with
  | none =>
    simp only [upsertRow, List.get?_eq_getElem?]
    rw [List.getElem?_append_left hj, ← List.get?_eq_getElem?]
    exact hget
  | some i =>
    obtain ⟨⟨r, hr, hitem⟩, _⟩ := Table.Find_eq_some item table i hfind
    have hij : i ≠ j := by
      intro e
      subst e
      rw [hr] at hget
      cases hget
      exact hne hitem
    simp only [upsertRow, List.get?_eq_getElem?]
    rw [List.getElem?_set_ne hij, ← List.get?_eq_getElem?]
    exact hget

/-- The row write puts the row at the index found, or at the end of the table
when no row was found. -/
theorem upsertRow_at (table : Table) (item : String) (new : Row) :
    (upsertRow table (Table.Find table item) new).get?
      ((Table.Find table item).getD table.length) = some new := by
  cases hfind : Table.Find table item with
  | none => simp [upsertRow]
  | some i =>
    obtain ⟨⟨r, hr, _⟩, _⟩ := Table.Find_eq_some item table i hfind
    have hi := get?_lt_length table i r hr
    simp [upsertRow, hi]

/-- In a catalog where `rank` falls along every ingredient edge, a completed
call without alternates on an item of lower rank than `x` keeps every row of
`x` at its index. -/
theorem rows_of_higher_rank_kept (P : Parser) (recipes : Recipes) (rank : String → Nat)
    (hrank : ∀ k r, recipes k = some r → ∀ kv ∈ r.Ingredients, rank kv.1 < rank k)
    (x : String) (fuel : Nat) (item : String) (q : ℚ) (st st1 : State)
    (hlow : rank item < rank x)
    (hrun : buildRecipe P recipes fuel item q [] st = .ok st1) :
    ∀ j row, st.table.get? j = some row → row.Item = x → st1.table.get? j = some row := by
  refine buildRecipe_rel P recipes [] (fun k => rank k < rank x)
    (fun a b : State => ∀ j row, a.table.get? j = some row → row.Item = x →
      b.table.get? j = some row)
    (fun s j row h _ => h) (fun a b c hab hbc j row h hx => hbc j row (hab j row h hx) hx)
    ?_ ?_ ?_ fuel item q st st1 hlow hrun
  · intro k r0 hk hrec kv hkv
    rw [substitute_nil] at hkv
    exact lt_trans (hrank k r0 hrec kv hkv) hk
  · intro k q1 s _ _ j row h _
    exact h
  · intro k q1 s r0 M L n e bp hk _ _ _ _ j row h hx
    apply upsertRow_keeps_other s.table k _ row j h
    intro e
    rw [hx] at e
    rw [e] at hk
    exact absurd hk (lt_irrefl _)

/-- In a catalog where `rank` falls along every ingredient edge, a completed
call without alternates on a catalogued item leaves the row it wrote for the
item in place: at the index found for the item, or at the end of the table the
call started with, stands the item's row with the merged quantity, the
building type of the item's recipe and the sizing of the merged quantity. -/
theorem buildRecipe_own_row (P : Parser) (recipes : Recipes) (rank : String → Nat)
    (hrank : ∀ k r, recipes k = some r → ∀ kv ∈ r.Ingredients, rank kv.1 < rank k)
    (fuel : Nat) (item : String) (q : ℚ) (st st1 : State) (r : Recipe)
    (hrec : recipes item = some r)
    (hrun : buildRecipe P recipes fuel item q [] st = .ok st1) :
    ∃ (M : ℚ) (L n : Nat) (e : ℚ), fractionToFloat P r.Building.Max = .ok M ∧
      buildingSizing L (mergeDemand st.table (Table.Find st.table item) q) M = some (n, e) ∧
      st1.table.get? ((Table.Find st.table item).getD st.table.length) =
        some ⟨item, mergeDemand st.table (Table.Find st.table item) q, r.Building.Typ, n, e⟩ := by
  cases fuel with
  | zero => simp [buildRecipe] at hrun
  | succ fuel =>
    simp only [buildRecipe, hrec, substitute_nil] at hrun
    split at hrun
    · cases hrun
    · rename_i M hM
      split at hrun
      · cases hrun
      · rename_i n e hsz
        split at hrun
        · cases hrun
        · rename_i bp hbp
          refine ⟨M, fuel + 1, n, e, hM, hsz, ?_⟩
          refine forIngredients_rel P _
            (fun a b : State => ∀ j row, a.table.get? j = some row → row.Item = item →
              b.table.get? j = some row)
            (fun s j row h _ => h)
            (fun a b c hab hbc j row h hx => hbc j row (hab j row h hx) hx)
            _ _ _ _ ?_ hrun _ _ (upsertRow_at st.table item _) rfl
          intro kv hkv q1 s s1 hcall
          exact rows_of_higher_rank_kept P recipes rank hrank item fuel kv.1 q1 s s1
            (hrank item r hrec kv hkv) hcall

/-- The rank of the diamond catalog falls along every ingredient edge. -/
theorem diamondRank_falls :
    ∀ k r, diamondCatalog k = some r → ∀ kv ∈ r.Ingredients,
      diamondRank kv.1 < diamondRank k := by
  intro k r hk kv hkv
  unfold diamondCatalog at hk
  split_ifs at hk with h1 h2 h3 h4 <;> cases hk <;>
    simp only [plainRecipe, List.mem_cons, List.mem_singleton, List.not_mem_nil, or_false]
      at hkv
  · subst h1; rcases hkv with rfl | rfl <;> decide
  · subst h2; subst hkv; decide
  · subst h3; subst hkv; decide

/-! ## Removing the by-products -/

/-- The substitution of lines 132-139 commutes with the removal of the
by-products. -/
theorem substitute_strip (recipes : Recipes) :
    ∀ (alts : List String) (item : String) (r : Recipe),
      substitute (stripByProducts recipes) alts item r.withoutByProducts =
        ((substitute recipes alts item r).1,
          (substitute recipes alts item r).2.withoutByProducts) := by
  intro alts
  induction alts with
  | nil => intro item r; rfl
  | cons a rest ih =>
    intro item r
    have hget : ((stripByProducts recipes) a).getD Recipe.zero =
        ((recipes a).getD Recipe.zero).withoutByProducts := by
      unfold stripByProducts
      cases recipes a <;> rfl
    rw [substitute_cons, substitute_cons]
    have halts : r.withoutByProducts.Alts = r.Alts := rfl
    rw [halts]
    split
    · rw [hget]; exact ih a _
    · exact ih item r

/-- The ingredients loop with calls that ignore the by-products. -/
theorem forIngredients_strip (P : Parser)
    (call call1 : String → ℚ → State → Except Failure State) (q : ℚ)
    (hcall : ∀ k q1 s s1 bp, call k q1 s = .ok s1 →
      call1 k q1 ⟨s.table, s.rawMaterials, bp⟩ = .ok ⟨s1.table, s1.rawMaterials, bp⟩) :
    ∀ (ings : List (String × String)) (st st1 : State) (bp : FloatMap),
      forIngredients P call q ings st = .ok st1 →
      forIngredients P call1 q ings ⟨st.table, st.rawMaterials, bp⟩ =
        .ok ⟨st1.table, st1.rawMaterials, bp⟩ := by
  intro ings
  induction ings with
  | nil =>
    intro st st1 bp h
    simp only [forIngredients, Except.ok.injEq] at h
    subst h; rfl
  | cons hd tl ih =>
    intro st st1 bp h
    obtain ⟨key, value⟩ := hd
    simp only [forIngredients] at h ⊢
    split at h
    · cases h
    · rename_i ratio hratio
      split at h
      · cases h
      · rename_i mid hmid
        simp only [hcall key _ st mid bp hmid]
        exact ih mid st1 bp h

/-- A completed call of `buildRecipe` completes on the catalog without
by-products, from any By-Products, with the same Build Table and Raw Materials
and with the By-Products untouched. -/
theorem buildRecipe_strip (P : Parser) (recipes : Recipes) (alts : List String) :
    ∀ (fuel : Nat) (item : String) (q : ℚ) (st st1 : State) (bp : FloatMap),
      buildRecipe P recipes fuel item q alts st = .ok st1 →
      buildRecipe P (stripByProducts recipes) fuel item q alts
          ⟨st.table, st.rawMaterials, bp⟩ =
        .ok ⟨st1.table, st1.rawMaterials, bp⟩ := by
  intro fuel
  induction fuel with
  | zero => intro item q st st1 bp h; simp [buildRecipe] at h
  | succ fuel ih =>
    intro item q st st1 bp h
    simp only [buildRecipe] at h ⊢
    cases hrec : recipes item with
    | none =>
      rw [hrec] at h
      simp only [Except.ok.injEq] at h
      subst h
      simp [stripByProducts, hrec]
    | some r0 =>
      rw [hrec] at h
      have hrec1 : stripByProducts recipes item = some r0.withoutByProducts := by
        simp [stripByProducts, hrec]
      simp only [hrec1, substitute_strip]
      simp only at h
      split at h
      · cases h
      · rename_i M hM
        split at h
        · cases h
        · rename_i n e hsz
          split at h
          · cases h
          · rename_i bp0 hbp0
            have hmax : (substitute recipes alts item r0).2.withoutByProducts.Building.Max =
                (substitute recipes alts item r0).2.Building.Max := rfl
            have htyp : (substitute recipes alts item r0).2.withoutByProducts.Building.Typ =
                (substitute recipes alts item r0).2.Building.Typ := rfl
            have hing : (substitute recipes alts item r0).2.withoutByProducts.Ingredients =
                (substitute recipes alts item r0).2.Ingredients := rfl
            have hbyp : (substitute recipes alts item r0).2.withoutByProducts.ByProducts = [] :=
              rfl
            simp only [hmax, htyp, hing, hbyp, hM, hsz, accrueByProducts]
            exact forIngredients_strip P _ _ _
              (fun k q1 s s1 bp1 hc => ih k q1 s s1 bp1 hc) _ _ _ bp h

/-! ## Rounding to binary64 -/

theorem log2Aux_spec :
    ∀ (fuel n : Nat), n ≤ fuel → 1 ≤ n →
      2 ^ log2Aux fuel n ≤ n ∧ n < 2 ^ (log2Aux fuel n + 1) := by
  intro fuel
  induction fuel with
  | zero => intro n h1 h2; omega
  | succ fuel ih =>
    intro n hle hpos
    unfold log2Aux
    by_cases h : n < 2
    · rw [if_pos h]
      have : n = 1 := by omega
      subst this
      simp
    · rw [if_neg h]
      obtain ⟨h1, h2⟩ := ih (n / 2) (by omega) (by omega)
      rw [Nat.pow_succ, Nat.pow_succ]
      rw [Nat.pow_succ] at h2
      constructor <;> omega

theorem natLog2_spec (n : Nat) (hn : 1 ≤ n) :
    2 ^ natLog2 n ≤ n ∧ n < 2 ^ (natLog2 n + 1) :=
  log2Aux_spec n n (le_refl _) hn

/-- A quotient of two numbers bracketed by powers of 2 is bracketed by the
quotients of the powers. -/
theorem quotient_bracket (a b : ℚ) (A B : ℕ) (hb : 0 < b)
    (h1 : (2 : ℚ) ^ A ≤ a) (h2 : a < (2 : ℚ) ^ (A + 1))
    (h3 : (2 : ℚ) ^ B ≤ b) (h4 : b < (2 : ℚ) ^ (B + 1)) :
    (2 : ℚ) ^ ((A : ℤ) - (B : ℤ) - 1) ≤ a / b ∧ a / b < (2 : ℚ) ^ ((A : ℤ) - (B : ℤ) + 1) := by
  have hA : (0 : ℚ) < (2 : ℚ) ^ A := by positivity
  have hB : (0 : ℚ) < (2 : ℚ) ^ B := by positivity
  have e1 : (2 : ℚ) ^ ((A : ℤ) - (B : ℤ) - 1) = (2 : ℚ) ^ A / ((2 : ℚ) ^ B * 2) := by
    rw [zpow_sub₀ (by norm_num), zpow_sub₀ (by norm_num), zpow_natCast, zpow_natCast, zpow_one]
    rw [div_div]
  have e2 : (2 : ℚ) ^ ((A : ℤ) - (B : ℤ) + 1) = (2 : ℚ) ^ A * 2 / (2 : ℚ) ^ B := by
    rw [zpow_add₀ (by norm_num), zpow_sub₀ (by norm_num), zpow_natCast, zpow_natCast, zpow_one]
    ring
  rw [pow_succ] at h2 h4
  constructor
  · rw [e1, div_le_div_iff₀ (by positivity) hb]
    nlinarith
  · rw [e2, div_lt_div_iff₀ hb hB]
    nlinarith

/-- The exponent of a positive number brackets it between two powers of 2. -/
theorem log2Floor_spec (x : ℚ) (hx : 0 < x) :
    (2 : ℚ) ^ log2Floor x ≤ x ∧ x < (2 : ℚ) ^ (log2Floor x + 1) := by
  have hnum : 0 < x.num := Rat.num_pos.mpr hx
  have ha1 : 1 ≤ x.num.natAbs := by omega
  have hb1 : 1 ≤ x.den := x.den_pos
  obtain ⟨ha_lo, ha_hi⟩ := natLog2_spec x.num.natAbs ha1
  obtain ⟨hb_lo, hb_hi⟩ := natLog2_spec x.den hb1
  have hcast : (x.num.natAbs : ℚ) = (x.num : ℚ) := by
    rw [Nat.cast_natAbs, abs_of_pos hnum]
  have hxeq : (x.num.natAbs : ℚ) / (x.den : ℚ) = x := by
    rw [hcast]
    exact Rat.num_div_den x
  have hbq : (0 : ℚ) < (x.den : ℚ) := by exact_mod_cast hb1
  obtain ⟨hlower, hupper⟩ := quotient_bracket (x.num.natAbs : ℚ) (x.den : ℚ)
    (natLog2 x.num.natAbs) (natLog2 x.den) hbq
    (by exact_mod_cast ha_lo) (by exact_mod_cast ha_hi)
    (by exact_mod_cast hb_lo) (by exact_mod_cast hb_hi)
  rw [hxeq] at hlower hupper
  unfold log2Floor
  split
  · rename_i h
    exact ⟨h, hupper⟩
  · rename_i h
    refine ⟨hlower, ?_⟩
    rw [sub_add_cancel]
    exact not_le.mp h

/-- The exponent grows with the number. -/
theorem log2Floor_mono (x y : ℚ) (hx : 0 < x) (hxy : x ≤ y) : log2Floor x ≤ log2Floor y := by
  obtain ⟨h1, _⟩ := log2Floor_spec x hx
  obtain ⟨_, h2⟩ := log2Floor_spec y (lt_of_lt_of_le hx hxy)
  have h : (2 : ℚ) ^ log2Floor x < (2 : ℚ) ^ (log2Floor y + 1) :=
    lt_of_le_of_lt (le_trans h1 hxy) h2
  have := (zpow_lt_zpow_iff_right₀ (by norm_num : (1 : ℚ) < 2)).mp h
  omega

theorem floor_le_roundNearestEven (y : ℚ) : ⌊y⌋ ≤ roundNearestEven y := by
  unfold roundNearestEven
  split_ifs <;> omega

theorem roundNearestEven_le_floor_succ (y : ℚ) : roundNearestEven y ≤ ⌊y⌋ + 1 := by
  unfold roundNearestEven
  split_ifs <;> omega

/-- Rounding to nearest, ties to even, is monotone. -/
theorem roundNearestEven_mono (y z : ℚ) (h : y ≤ z) :
    roundNearestEven y ≤ roundNearestEven z := by
  have hf : ⌊y⌋ ≤ ⌊z⌋ := Int.floor_mono h
  rcases lt_or_eq_of_le hf with hlt | heq
  · exact le_trans (roundNearestEven_le_floor_succ y)
      (le_trans (by omega) (floor_le_roundNearestEven z))
  · have hfr : y - ⌊y⌋ ≤ z - ⌊z⌋ := by rw [heq]; linarith
    unfold roundNearestEven
    rw [heq] at hfr ⊢
    split_ifs <;> first | omega | (exfalso; linarith)

theorem roundNearestEven_intCast (k : ℤ) : roundNearestEven (k : ℚ) = k := by
  unfold roundNearestEven
  simp

theorem quantum_pos (x : ℚ) : 0 < quantum x := by
  unfold quantum
  positivity

/-- Rounding a magnitude gives a magnitude. -/
theorem roundMag_nonneg (x : ℚ) (hx : 0 ≤ x) : 0 ≤ roundMag x := by
  unfold roundMag
  apply mul_nonneg _ (quantum_pos x).le
  have h1 : (0 : ℤ) ≤ ⌊x / quantum x⌋ := Int.floor_nonneg.mpr (div_nonneg hx (quantum_pos x).le)
  have h2 := floor_le_roundNearestEven (x / quantum x)
  exact_mod_cast le_trans h1 h2

theorem roundMag_zero : roundMag 0 = 0 := by
  unfold roundMag
  simp [roundNearestEven]

/-- A positive magnitude is below the power of 2 that ends its binade. -/
theorem lt_binade_succ (x : ℚ) (hx : 0 < x) : x < (2 : ℚ) ^ (binade x + 1) := by
  obtain ⟨_, h⟩ := log2Floor_spec x hx
  refine lt_of_lt_of_le h ?_
  apply (zpow_le_zpow_iff_right₀ (by norm_num : (1 : ℚ) < 2)).mpr
  unfold binade
  have := le_max_left (log2Floor x) (-1022)
  omega

/-- The rounded magnitude does not pass the end of the binade. -/
theorem roundMag_le_binade_succ (x : ℚ) (hx : 0 < x) :
    roundMag x ≤ (2 : ℚ) ^ (binade x + 1) := by
  have hq := quantum_pos x
  have h1 : x / quantum x ≤ (((2 : ℤ) ^ 53 : ℤ) : ℚ) := by
    rw [div_le_iff₀ hq]
    have h2 : (((2 : ℤ) ^ 53 : ℤ) : ℚ) * quantum x = (2 : ℚ) ^ (binade x + 1) := by
      unfold quantum
      have : ((((2 : ℤ) ^ 53 : ℤ)) : ℚ) = (2 : ℚ) ^ (53 : ℤ) := by norm_num
      rw [this, ← zpow_add₀ (by norm_num)]
      congr 1; ring
    rw [h2]
    exact (lt_binade_succ x hx).le
  have h3 := roundNearestEven_mono _ _ h1
  rw [roundNearestEven_intCast] at h3
  have h4 : (roundNearestEven (x / quantum x) : ℚ) ≤ (((2 : ℤ) ^ 53 : ℤ) : ℚ) := by
    exact_mod_cast h3
  unfold roundMag
  calc (roundNearestEven (x / quantum x) : ℚ) * quantum x
      ≤ (((2 : ℤ) ^ 53 : ℤ) : ℚ) * quantum x := mul_le_mul_of_nonneg_right h4 hq.le
    _ = (2 : ℚ) ^ (binade x + 1) := by
      unfold quantum
      have : ((((2 : ℤ) ^ 53 : ℤ)) : ℚ) = (2 : ℚ) ^ (53 : ℤ) := by norm_num
      rw [this, ← zpow_add₀ (by norm_num)]
      congr 1; ring

/-- Above the subnormal range the rounded magnitude stays in its binade. -/
theorem binade_le_roundMag (y : ℚ) (hy : 0 < y) (hb : -1022 < binade y) :
    (2 : ℚ) ^ binade y ≤ roundMag y := by
  have hq := quantum_pos y
  have hlog : binade y = log2Floor y := by
    unfold binade at hb ⊢
    rcases max_cases (log2Floor y) (-1022) with ⟨h, _⟩ | ⟨h, _⟩
    · exact h
    · rw [h] at hb; omega
  obtain ⟨hlo, _⟩ := log2Floor_spec y hy
  rw [← hlog] at hlo
  have hpow : (((2 : ℤ) ^ 52 : ℤ) : ℚ) * quantum y = (2 : ℚ) ^ binade y := by
    unfold quantum
    have : ((((2 : ℤ) ^ 52 : ℤ)) : ℚ) = (2 : ℚ) ^ (52 : ℤ) := by norm_num
    rw [this, ← zpow_add₀ (by norm_num)]
    congr 1; ring
  have h1 : (((2 : ℤ) ^ 52 : ℤ) : ℚ) ≤ y / quantum y := by
    rw [le_div_iff₀ hq, hpow]
    exact hlo
  have h3 := roundNearestEven_mono _ _ h1
  rw [roundNearestEven_intCast] at h3
  have h4 : (((2 : ℤ) ^ 52 : ℤ) : ℚ) ≤ (roundNearestEven (y / quantum y) : ℚ) := by
    exact_mod_cast h3
  unfold roundMag
  rw [← hpow]
  exact mul_le_mul_of_nonneg_right h4 hq.le

/-- Rounding to binary64 is monotone on magnitudes. -/
theorem roundMag_mono (x y : ℚ) (hx : 0 ≤ x) (hxy : x ≤ y) : roundMag x ≤ roundMag y := by
  rcases lt_or_eq_of_le hx with hpos | hzero
  · have hy : 0 < y := lt_of_lt_of_le hpos hxy
    have hb : binade x ≤ binade y := by
      unfold binade
      exact max_le_max (log2Floor_mono x y hpos hxy) (le_refl _)
    rcases lt_or_eq_of_le hb with hlt | heq
    · have h1 := roundMag_le_binade_succ x hpos
      have hx1022 : -1022 ≤ binade x := le_max_right _ _
      have h2 := binade_le_roundMag y hy (by omega)
      have h3 : (2 : ℚ) ^ (binade x + 1) ≤ (2 : ℚ) ^ binade y :=
        (zpow_le_zpow_iff_right₀ (by norm_num : (1 : ℚ) < 2)).mpr (by omega)
      linarith
    · have hq : quantum x = quantum y := by unfold quantum; rw [heq]
      unfold roundMag
      rw [hq]
      apply mul_le_mul_of_nonneg_right _ (quantum_pos y).le
      have := roundNearestEven_mono (x / quantum y) (y / quantum y)
        (div_le_div_of_nonneg_right hxy (quantum_pos y).le)
      exact_mod_cast this
  · rw [← hzero, roundMag_zero]
    exact roundMag_nonneg y (le_trans hx hxy)

/-! ## float64 values -/

theorem F64.ofMag_cases (neg : Bool) (x : ℚ) :
    F64.ofMag neg x = .fin neg (roundMag x) ∨ F64.ofMag neg x = .inf neg := by
  unfold F64.ofMag
  split
  · right; rfl
  · left; rfl

/-- A magnitude at most a binary64 value `r` rounds to a finite value at most
`r`. -/
theorem F64.ofMag_le (neg : Bool) (x r : ℚ) (hx : 0 ≤ x) (hxr : x ≤ r)
    (hr : roundMag r = r) (hfin : r < (2 : ℚ) ^ (1024 : ℤ)) :
    F64.ofMag neg x = .fin neg (roundMag x) ∧ 0 ≤ roundMag x ∧ roundMag x ≤ r := by
  have h1 : roundMag x ≤ r := by
    have := roundMag_mono x r hx hxr
    rwa [hr] at this
  refine ⟨?_, roundMag_nonneg x hx, h1⟩
  unfold F64.ofMag
  rw [if_neg (not_le.mpr (lt_of_le_of_lt h1 hfin))]

theorem F64.ofMag_ne_nan (neg : Bool) (x : ℚ) : F64.ofMag neg x ≠ .nan := by
  rcases F64.ofMag_cases neg x with h | h <;> rw [h] <;> simp

/-- The conversion of a non-negative integer. -/
theorem F64.ofInt_of_nonneg (n : Int) (hn : 0 ≤ n) :
    F64.ofInt n = F64.ofMag false (n : ℚ) := by
  have h0 : (0 : ℚ) ≤ (n : ℚ) := by exact_mod_cast hn
  unfold F64.ofInt F64.ofRat
  rw [abs_of_nonneg h0]
  simp [not_lt.mpr h0]

/-- The conversion of a negative integer. -/
theorem F64.ofInt_of_neg (n : Int) (hn : n < 0) :
    F64.ofInt n = F64.ofMag true (-(n : ℚ)) := by
  have h0 : (n : ℚ) < 0 := by exact_mod_cast hn
  unfold F64.ofInt F64.ofRat
  rw [abs_of_neg h0]
  simp [h0]

/-- The product of a finite non-zero maximum and a converted count is not NaN. -/
theorem F64.mul_ofInt_ne_nan (neg : Bool) (mm : ℚ) (hmm : mm ≠ 0) (n : Int) :
    F64.mul (.fin neg mm) (F64.ofInt n) ≠ .nan := by
  have key : ∀ (s : Bool) (x : ℚ), F64.mul (.fin neg mm) (F64.ofMag s x) ≠ .nan := by
    intro s x
    rcases F64.ofMag_cases s x with h | h
    · rw [h]
      exact F64.ofMag_ne_nan _ _
    · rw [h]
      simp [F64.mul, hmm]
  rcases lt_or_le n 0 with h | h
  · rw [F64.ofInt_of_neg n h]; exact key _ _
  · rw [F64.ofInt_of_nonneg n h]; exact key _ _

/-- For values other than NaN, `a > b` fails exactly when `a <= b` holds. -/
theorem F64.gt_eq_not_le (a b : F64) (ha : a ≠ .nan) (hb : b ≠ .nan) :
    F64.gt a b = !F64.le a b := by
  unfold F64.gt
  cases a with
  | nan => exact absurd rfl ha
  | inf na =>
    cases b with
    | nan => exact absurd rfl hb
    | inf nb => cases na <;> cases nb <;> rfl
    | fin nb mb => cases na <;> rfl
  | fin na ma =>
    cases b with
    | nan => exact absurd rfl hb
    | inf nb => cases nb <;> rfl
    | fin nb mb =>
      simp only [F64.lt, F64.le]
      by_cases h : F64.signed na ma ≤ F64.signed nb mb
      · simp [h, not_lt.mpr h]
      · simp [h, not_le.mp h]

/-! ## The sizing loop on float64 and int -/

theorem incr64_eq (c : Int) (h1 : -2 ^ 63 ≤ c) (h2 : c < maxInt64) : incr64 c = c + 1 := by
  unfold incr64
  unfold maxInt64 at h2
  norm_num at h1 h2 ⊢
  omega

theorem incr64_range (c : Int) : -2 ^ 63 ≤ incr64 c ∧ incr64 c ≤ maxInt64 := by
  unfold incr64 maxInt64
  norm_num
  omega

/-- A loop whose condition fails at some count `N` of the `int` range, reached
from the start `c` without wrapping, returns the first count from `c` on at
which the condition fails. -/
theorem sizingLoop64_returns (q M : F64) (N : Int) (hN : N ≤ maxInt64)
    (hcov : F64.gt q (F64.mul M (F64.ofInt N)) = false) :
    ∀ (d : Nat) (c : Int), -2 ^ 63 ≤ c → c ≤ N → N - c ≤ d →
      ∃ n : Int, c ≤ n ∧ n ≤ N ∧
        (∀ fuel : Nat, d < fuel → sizingLoop64 q M fuel c = some n) ∧
        F64.gt q (F64.mul M (F64.ofInt n)) = false ∧
        ∀ m : Int, c ≤ m → m < n → F64.gt q (F64.mul M (F64.ofInt m)) = true := by
  intro d
  induction d with
  | zero =>
    intro c _ hcN hd
    have hc : c = N := by omega
    subst hc
    refine ⟨c, le_refl _, le_refl _, ?_, hcov, fun m h1 h2 => absurd h2 (by omega)⟩
    intro fuel hf
    obtain ⟨f, rfl⟩ : ∃ f, fuel = f + 1 := ⟨fuel - 1, by omega⟩
    simp [sizingLoop64, hcov]
  | succ d ih =>
    intro c hc0 hcN hd
    cases hcond : F64.gt q (F64.mul M (F64.ofInt c)) with
    | false =>
      refine ⟨c, le_refl _, hcN, ?_, hcond, fun m h1 h2 => absurd h2 (by omega)⟩
      intro fuel hf
      obtain ⟨f, rfl⟩ : ∃ f, fuel = f + 1 := ⟨fuel - 1, by omega⟩
      simp [sizingLoop64, hcond]
    | true =>
      have hne : c ≠ N := by
        intro e
        rw [e, hcov] at hcond
        cases hcond
      have hlt : c < N := lt_of_le_of_ne hcN hne
      obtain ⟨n, h1, h2, h3, h4, h5⟩ := ih (c + 1) (by omega) (by omega) (by omega)
      refine ⟨n, by omega, h2, ?_, h4, ?_⟩
      · intro fuel hf
        obtain ⟨f, rfl⟩ : ∃ f, fuel = f + 1 := ⟨fuel - 1, by omega⟩
        simp only [sizingLoop64, hcond, if_true]
        rw [incr64_eq c hc0 (by omega)]
        exact h3 f (by omega)
      · intro m hm1 hm2
        rcases eq_or_lt_of_le hm1 with e | hlt1
        · rw [← e]; exact hcond
        · exact h5 m (by omega) hm2

/-- More fuel does not change the result of a finished sizing loop. -/
theorem sizingLoop64_mono (q M : F64) :
    ∀ (L : Nat) (c n : Int) (L1 : Nat), sizingLoop64 q M L c = some n → L ≤ L1 →
      sizingLoop64 q M L1 c = some n := by
  intro L
  induction L with
  | zero => intro c n L1 h; simp [sizingLoop64] at h
  | succ L ih =>
    intro c n L1 h hle
    obtain ⟨L2, rfl⟩ : ∃ L2, L1 = L2 + 1 := ⟨L1 - 1, by omega⟩
    simp only [sizingLoop64] at h ⊢
    split at h
    · rename_i hc
      rw [if_pos hc]
      exact ih _ n L2 h (by omega)
    · rename_i hc
      rw [if_neg hc]
      exact h

/-- A loop whose condition holds at every count of the `int` range never
returns. -/
theorem sizingLoop64_never (q M : F64)
    (hall : ∀ c : Int, -2 ^ 63 ≤ c → c ≤ maxInt64 →
      F64.gt q (F64.mul M (F64.ofInt c)) = true) :
    ∀ (fuel : Nat) (c : Int), -2 ^ 63 ≤ c → c ≤ maxInt64 → sizingLoop64 q M fuel c = none := by
  intro fuel
  induction fuel with
  | zero => intro c _ _; rfl
  | succ fuel ih =>
    intro c h1 h2
    simp only [sizingLoop64, hall c h1 h2, if_true]
    exact ih (incr64 c) (incr64_range c).1 (incr64_range c).2

/-- What a returned count says: the loop condition fails at it. -/
theorem sizingLoop64_some (q M : F64) :
    ∀ (fuel : Nat) (c n : Int), sizingLoop64 q M fuel c = some n →
      F64.gt q (F64.mul M (F64.ofInt n)) = false := by
  intro fuel
  induction fuel with
  | zero => intro c n h; simp [sizingLoop64] at h
  | succ fuel ih =>
    intro c n h
    simp only [sizingLoop64] at h
    split at h
    · exact ih _ n h
    · rename_i hc
      simp only [Option.some.injEq] at h
      subst h
      simpa using hc

/-- The product of a finite positive maximum and a converted count from 0 on
is `+Inf` or a finite value of positive sign. -/
theorem F64.mul_pos_ofInt (mm : ℚ) (hM : 0 < mm) (n : Int) (hn : 0 ≤ n) :
    F64.mul (.fin false mm) (F64.ofInt n) = .inf false ∨
      ∃ pm : ℚ, F64.mul (.fin false mm) (F64.ofInt n) = .fin false pm := by
  rw [F64.ofInt_of_nonneg n hn]
  rcases F64.ofMag_cases false (n : ℚ) with h | h
  · rw [h]
    simp only [F64.mul, Bool.xor_false]
    rcases F64.ofMag_cases false (mm * roundMag (n : ℚ)) with h1 | h1
    · right; exact ⟨_, h1⟩
    · left; exact h1
  · rw [h]
    left
    simp [F64.mul, hM.ne']

/-- The efficiency of line 147 for a positive finite demand covered by the
product: a finite value from 0 to 100, and above 0 when the product is finite
and the quotient is not below the normal range. -/
theorem efficiency64_bounds (mm qm : ℚ) (n : Int) (hM : 0 < mm) (hq : 0 < qm) (hn : 0 ≤ n)
    (hle : F64.le (.fin false qm) (F64.mul (.fin false mm) (F64.ofInt n)) = true) :
    ∃ v : ℚ, efficiency64 (.fin false qm) (.fin false mm) n = .fin false v ∧
      0 ≤ v ∧ v ≤ 100 ∧
      (∀ pm : ℚ, F64.mul (.fin false mm) (F64.ofInt n) = .fin false pm →
        (2 : ℚ) ^ (-1022 : ℤ) ≤ qm / pm → 0 < v) := by
  have h1 : roundMag 1 = 1 := by decide!
  have h100 : roundMag 100 = 100 := by decide!
  have hmin : roundMag ((2 : ℚ) ^ (-1022 : ℤ)) = (2 : ℚ) ^ (-1022 : ℤ) := by decide!
  have hfin1 : (1 : ℚ) < (2 : ℚ) ^ (1024 : ℤ) := by norm_num
  have hfin100 : (100 : ℚ) < (2 : ℚ) ^ (1024 : ℤ) := by norm_num
  have hminpos : (0 : ℚ) < (2 : ℚ) ^ (-1022 : ℤ) := by positivity
  rcases F64.mul_pos_ofInt mm hM n hn with hP | ⟨pm, hP⟩
  · refine ⟨0, ?_, le_refl _, by norm_num, ?_⟩
    · unfold efficiency64
      rw [hP]
      have hz : ¬ ((2 : ℚ) ^ (1024 : ℤ) ≤ 0) := by norm_num
      simp [F64.div, F64.mul, F64.ofMag, roundMag_zero, hz]
    · intro pm h
      rw [hP] at h
      cases h
  · rw [hP] at hle
    simp only [F64.le, F64.signed, Bool.false_eq_true, if_false, decide_eq_true_eq] at hle
    have hpm : 0 < pm := lt_of_lt_of_le hq hle
    have hquot : qm / pm ≤ 1 := (div_le_one hpm).mpr hle
    have hquot0 : 0 ≤ qm / pm := (div_pos hq hpm).le
    obtain ⟨e1, r0, r1⟩ := F64.ofMag_le false (qm / pm) 1 hquot0 hquot h1 hfin1
    obtain ⟨e2, s0, s1⟩ := F64.ofMag_le false (roundMag (qm / pm) * 100) 100
      (by positivity) (by linarith) h100 hfin100
    refine ⟨roundMag (roundMag (qm / pm) * 100), ?_, s0, s1, ?_⟩
    · unfold efficiency64
      rw [hP]
      have hdiv : F64.div (.fin false qm) (.fin false pm) = F64.ofMag false (qm / pm) := by
        simp [F64.div, hpm.ne']
      rw [hdiv, e1]
      have hmul : F64.mul (.fin false (roundMag (qm / pm))) (.fin false 100) =
          F64.ofMag false (roundMag (qm / pm) * 100) := by
        simp [F64.mul]
      rw [hmul, e2]
    · intro pm1 h hnorm
      rw [hP] at h
      simp only [F64.fin.injEq, true_and] at h
      subst h
      have k1 : (2 : ℚ) ^ (-1022 : ℤ) ≤ roundMag (qm / pm) := by
        have := roundMag_mono _ _ hminpos.le hnorm
        rwa [hmin] at this
      have k2 : (2 : ℚ) ^ (-1022 : ℤ) ≤ roundMag (qm / pm) * 100 := by linarith
      have k3 := roundMag_mono _ _ hminpos.le k2
      rw [hmin] at k3
      linarith

/-- For demand 1e19 and maximum 1 the loop condition holds at every value of
the `int` counter, so the sizing loop never returns. -/
theorem sizingLoop64_never_1e19 :
    ∀ fuel : Nat, sizingLoop64 (.fin false (10 ^ 19)) (.fin false 1) fuel 1 = none := by
  have h63 : roundMag ((2 : ℚ) ^ 63) = (2 : ℚ) ^ 63 := by decide!
  have hfin : ((2 : ℚ) ^ 63) < (2 : ℚ) ^ (1024 : ℤ) := by norm_num
  have hlt : ((2 : ℚ) ^ 63) < 10 ^ 19 := by norm_num
  intro fuel
  refine sizingLoop64_never _ _ ?_ fuel 1 (by norm_num) (by unfold maxInt64; norm_num)
  intro c h1 h2
  unfold maxInt64 at h2
  rcases lt_or_le c 0 with hneg | hnonneg
  · have hc : (0 : ℚ) ≤ -(c : ℚ) := by
      have : (c : ℚ) < 0 := by exact_mod_cast hneg
      linarith
    have hc2 : -(c : ℚ) ≤ (2 : ℚ) ^ 63 := by
      have : (-2 ^ 63 : ℚ) ≤ (c : ℚ) := by exact_mod_cast h1
      linarith
    obtain ⟨e1, r0, r1⟩ := F64.ofMag_le true (-(c : ℚ)) _ hc hc2 h63 hfin
    rw [F64.ofInt_of_neg c hneg, e1]
    obtain ⟨e2, s0, s1⟩ := F64.ofMag_le true (1 * roundMag (-(c : ℚ))) _
      (by linarith) (by linarith) h63 hfin
    simp only [F64.mul, Bool.false_xor]
    rw [e2]
    simp only [F64.gt, F64.lt, F64.signed, if_true, Bool.false_eq_true, if_false,
      decide_eq_true_eq]
    linarith
  · have hc : (0 : ℚ) ≤ (c : ℚ) := by exact_mod_cast hnonneg
    have hc2 : (c : ℚ) ≤ (2 : ℚ) ^ 63 := by
      have : (c : ℚ) ≤ 2 ^ 63 - 1 := by exact_mod_cast h2
      linarith
    obtain ⟨e1, r0, r1⟩ := F64.ofMag_le false (c : ℚ) _ hc hc2 h63 hfin
    rw [F64.ofInt_of_nonneg c hnonneg, e1]
    obtain ⟨e2, s0, s1⟩ := F64.ofMag_le false (1 * roundMag (c : ℚ)) _
      (by linarith) (by linarith) h63 hfin
    simp only [F64.mul, Bool.xor_false]
    rw [e2]
    simp only [F64.gt, F64.lt, F64.signed, Bool.false_eq_true, if_false, decide_eq_true_eq]
    linarith

/-- The loop on exact numbers and the loop on `float64` and `int` return the
same count when that count lies in the `int` range and the `float64` products
`buildingMax * float64(k)` are exact at the counts `k` the loop tests. -/
theorem sizingLoop64_of_exact (qneg : Bool) (qm mm : ℚ) :
    ∀ (fuel c n : Nat), buildingQuantityLoop (F64.signed qneg qm) mm fuel c = some n →
      (n : Int) ≤ maxInt64 →
      (∀ k : Nat, c ≤ k → k ≤ n →
        F64.mul (.fin false mm) (F64.ofInt (k : Int)) = .fin false (mm * (k : ℚ))) →
      sizingLoop64 (.fin qneg qm) (.fin false mm) fuel (c : Int) = some (n : Int) := by
  intro fuel
  induction fuel with
  | zero => intro c n h; simp [buildingQuantityLoop] at h
  | succ fuel ih =>
    intro c n h hn hexact
    have hcn := (buildingQuantityLoop_some _ mm (fuel + 1) c n h).1
    have hgt : F64.gt (.fin qneg qm) (F64.mul (.fin false mm) (F64.ofInt (c : Int))) =
        decide (mm * (c : ℚ) < F64.signed qneg qm) := by
      rw [hexact c (le_refl _) hcn]
      simp [F64.gt, F64.lt, F64.signed]
    simp only [buildingQuantityLoop] at h
    simp only [sizingLoop64, hgt]
    by_cases hc : F64.signed qneg qm > mm * (c : ℚ)
    · rw [if_pos hc] at h
      have hlt := (buildingQuantityLoop_some _ mm fuel (c + 1) n h).1
      have hincr : incr64 (c : Int) = ((c + 1 : Nat) : Int) := by
        rw [incr64_eq (c : Int) (by have : (0 : Int) ≤ (c : Int) := Int.natCast_nonneg c; omega)
          (by omega)]
        push_cast
        ring
      rw [if_pos (by simpa using hc), hincr]
      exact ih (c + 1) n h hn (fun k hk1 hk2 => hexact k (by omega) hk2)
    · rw [if_neg hc] at h
      simp only [Option.some.injEq] at h
      subst h
      rw [if_neg (by simpa using hc)]

/-! ## The expansion on float64: nesting and budgets -/

/-- The only failure of `fractionToFloat64` is the panic. -/
theorem fractionToFloat64_error (P : Parser64) (s : String) (e : Stop)
    (h : fractionToFloat64 P s = .error e) : e = .panic := by
  unfold fractionToFloat64 at h
  split at h
  · simp only [Except.error.injEq] at h; exact h.symm
  · simp only at h
    split at h
    · simp only [Except.error.injEq] at h; exact h.symm
    · cases h
  · simp only at h
    split at h
    · simp only [Except.error.injEq] at h; exact h.symm
    · cases h

/-- The only failure of the by-products loop is the panic. -/
theorem accrueByProducts64_error (P : Parser64) (q : F64) :
    ∀ (bps : List (String × String)) (acc : FloatMap64) (e : Stop),
      accrueByProducts64 P q bps acc = .error e → e = .panic := by
  intro bps
  induction bps with
  | nil => intro acc e h; cases h
  | cons hd tl ih =>
    intro acc e h
    obtain ⟨key, value⟩ := hd
    simp only [accrueByProducts64] at h
    split at h
    · rename_i e1 he1
      simp only [Except.error.injEq] at h
      subst h
      exact fractionToFloat64_error P value _ he1
    · split at h
      · exact ih _ e h
      · exact ih _ e h

/-- The ingredients loop keeps a result or a panic when its calls are replaced
by calls that keep results and panics. -/
theorem forIngredients64_mono (P : Parser64)
    (call call1 : String → F64 → State64 → Except Stop State64) (q : F64)
    (hcall : ∀ k q1 s o, (∀ e, o = .error e → e = .panic) → call k q1 s = o →
      call1 k q1 s = o) :
    ∀ (ings : List (String × String)) (st : State64) (out : Except Stop State64),
      (∀ e, out = .error e → e = .panic) → forIngredients64 P call q ings st = out →
      forIngredients64 P call1 q ings st = out := by
  intro ings
  induction ings with
  | nil => intro st out _ h; exact h
  | cons hd tl ih =>
    intro st out hout h
    obtain ⟨key, value⟩ := hd
    simp only [forIngredients64] at h ⊢
    cases hratio : fractionToFloat64 P value with
    | error e => rw [hratio] at h; exact h
    | ok ratio =>
      rw [hratio] at h
      simp only at h ⊢
      cases hc : call key (F64.mul q ratio) st with
      | error e =>
        rw [hc] at h
        simp only at h
        have he : ∀ e1, (Except.error e : Except Stop State64) = .error e1 → e1 = .panic := by
          intro e1 h1
          exact hout e1 (h ▸ h1)
        rw [hcall key _ st _ he hc]
        exact h
      | ok mid =>
        rw [hc] at h
        simp only at h
        rw [hcall key _ st _ (fun e1 h1 => by cases h1) hc]
        exact ih mid out hout h

/-- A run that ends with a result or a panic ends the same way when either
budget grows. -/
theorem buildRecipe64_mono (P : Parser64) (recipes : Recipes) (alts : List String) :
    ∀ (d L L1 d1 : Nat) (item : String) (q : F64) (st : State64) (out : Except Stop State64),
      (∀ e, out = .error e → e = .panic) → L ≤ L1 → d ≤ d1 →
      buildRecipe64 P recipes L d item q alts st = out →
      buildRecipe64 P recipes L1 d1 item q alts st = out := by
  intro d
  induction d with
  | zero =>
    intro L L1 d1 item q st out hout _ _ h
    have := hout .depth h.symm
    cases this
  | succ d ih =>
    intro L L1 d1 item q st out hout hL hd h
    obtain ⟨d2, rfl⟩ : ∃ d2, d1 = d2 + 1 := ⟨d1 - 1, by omega⟩
    simp only [buildRecipe64] at h ⊢
    cases hrec : recipes item with
    | none => rw [hrec] at h; exact h
    | some r0 =>
      rw [hrec] at h
      simp only at h ⊢
      cases hM : fractionToFloat64 P (substitute recipes alts item r0).2.Building.Max with
      | error e => rw [hM] at h; exact h
      | ok M =>
        rw [hM] at h
        simp only at h ⊢
        cases hsz : buildingSizing64 L
            (mergeDemand64 st.table (Table64.Find st.table item) q) M with
        | none =>
          rw [hsz] at h
          have := hout _ h.symm
          cases this
        | some ne =>
          obtain ⟨n, e⟩ := ne
          rw [hsz] at h
          have hsz1 : buildingSizing64 L1
              (mergeDemand64 st.table (Table64.Find st.table item) q) M = some (n, e) := by
            unfold buildingSizing64 at hsz ⊢
            cases hl : sizingLoop64 (mergeDemand64 st.table (Table64.Find st.table item) q) M L 1 with
            | none => rw [hl] at hsz; simp at hsz
            | some k =>
              rw [hl] at hsz
              rw [sizingLoop64_mono _ M L 1 k L1 hl hL]
              exact hsz
          rw [hsz1]
          simp only at h ⊢
          cases hbp : accrueByProducts64 P
              (mergeDemand64 st.table (Table64.Find st.table item) q)
              (substitute recipes alts item r0).2.ByProducts st.byProducts with
          | error e1 => rw [hbp] at h; exact h
          | ok bp =>
            rw [hbp] at h
            simp only at h ⊢
            exact forIngredients64_mono P _ _ _
              (fun k q1 s o ho hc => ih L L1 d2 k q1 s o ho hL (by omega) hc)
              _ _ out hout h

/-- The ingredients loop does not stop for the nesting bound when none of its
calls does. -/
theorem forIngredients64_ne_depth (P : Parser64)
    (call : String → F64 → State64 → Except Stop State64) (q : F64) :
    ∀ (ings : List (String × String)) (st : State64),
      (∀ kv ∈ ings, ∀ q1 s, call kv.1 q1 s ≠ .error .depth) →
      forIngredients64 P call q ings st ≠ .error .depth := by
  intro ings
  induction ings with
  | nil => intro st _ h; cases h
  | cons hd tl ih =>
    intro st hcall h
    obtain ⟨key, value⟩ := hd
    simp only [forIngredients64] at h
    split at h
    · rename_i e he
      simp only [Except.error.injEq] at h
      subst h
      have := fractionToFloat64_error P value _ he
      cases this
    · split at h
      · rename_i e hc
        simp only [Except.error.injEq] at h
        subst h
        exact hcall (key, value) (List.mem_cons_self _ _) _ st hc
      · exact ih _ (fun kv hkv => hcall kv (List.mem_cons_of_mem _ hkv)) h

/-- In a catalog where `rank` falls along every edge from an item to an
ingredient of the recipe activated for it, a call with a nesting bound above
the rank of its item never stops for that bound, whatever the loop budget. -/
theorem buildRecipe64_ne_depth (P : Parser64) (recipes : Recipes) (alts : List String)
    (rank : String → Nat)
    (hrank : ∀ k r0, recipes k = some r0 →
      ∀ kv ∈ (substitute recipes alts k r0).2.Ingredients, rank kv.1 < rank k) (L : Nat) :
    ∀ (n : Nat) (item : String), rank item < n → ∀ (d : Nat) (q : F64) (st : State64),
      rank item + 1 ≤ d → buildRecipe64 P recipes L d item q alts st ≠ .error .depth := by
  intro n
  induction n with
  | zero => intro item h; exact absurd h (Nat.not_lt_zero _)
  | succ n ih =>
    intro item hlt d q st hd h
    obtain ⟨d1, rfl⟩ : ∃ d1, d = d1 + 1 := ⟨d - 1, by omega⟩
    simp only [buildRecipe64] at h
    split at h
    · cases h
    · rename_i r0 hrec
      split at h
      · rename_i e he
        simp only [Except.error.injEq] at h
        subst h
        have := fractionToFloat64_error P _ _ he
        cases this
      · split at h
        · cases h
        · split at h
          · rename_i e he
            simp only [Except.error.injEq] at h
            subst h
            have := accrueByProducts64_error P _ _ _ _ he
            cases this
          · refine forIngredients64_ne_depth P _ _ _ _ ?_ h
            intro kv hkv q1 s
            have hlow := hrank item r0 hrec kv hkv
            exact ih kv.1 (by omega) d1 q1 s (by omega)

/-- The ingredients loop comes to an end when each of its calls does: `call L`
is the recursive call under the loop budget `L`. -/
theorem forIngredients64_ends (P : Parser64)
    (call : Nat → String → F64 → State64 → Except Stop State64) (q : F64)
    (hmono : ∀ L L1 k q1 s o, (∀ e, o = .error e → e = .panic) → L ≤ L1 →
      call L k q1 s = o → call L1 k q1 s = o) :
    ∀ (ings : List (String × String)) (st : State64) (L0 : Nat),
      (∀ kv ∈ ings, ∀ (q1 : F64) (s : State64) (K : Nat),
        (∀ L, K ≤ L → ∀ qq M, call L kv.1 q1 s = .error (.loop qq M) →
          ∃ L1, sizingLoop64 qq M L1 1 ≠ none) →
        ∃ L out, K ≤ L ∧ (∀ e, out = .error e → e = .panic) ∧ call L kv.1 q1 s = out) →
      (∀ L, L0 ≤ L → ∀ qq M, forIngredients64 P (call L) q ings st = .error (.loop qq M) →
        ∃ L1, sizingLoop64 qq M L1 1 ≠ none) →
      ∃ L out, L0 ≤ L ∧ (∀ e, out = .error e → e = .panic) ∧
        forIngredients64 P (call L) q ings st = out := by
  intro ings
  induction ings with
  | nil =>
    intro st L0 _ _
    exact ⟨L0, .ok st, le_refl _, (fun e h => by cases h), rfl⟩
  | cons hd tl ih =>
    intro st L0 hends H
    obtain ⟨key, value⟩ := hd
    cases hratio : fractionToFloat64 P value with
    | error e =>
      refine ⟨L0, .error e, le_refl _, ?_, ?_⟩
      · intro e1 h1
        simp only [Except.error.injEq] at h1
        subst h1
        exact fractionToFloat64_error P value _ hratio
      · simp only [forIngredients64, hratio]
    | ok ratio =>
      have hsub : ∀ L, L0 ≤ L → ∀ qq M,
          call L key (F64.mul q ratio) st = .error (.loop qq M) →
          ∃ L1, sizingLoop64 qq M L1 1 ≠ none := by
        intro L hL qq M hc
        refine H L hL qq M ?_
        simp only [forIngredients64, hratio, hc]
      obtain ⟨L2, out1, hL2, hset1, hc1⟩ :=
        hends (key, value) (List.mem_cons_self _ _) (F64.mul q ratio) st L0 hsub
      cases out1 with
      | error e =>
        refine ⟨L2, .error e, hL2, hset1, ?_⟩
        simp only [forIngredients64, hratio, hc1]
      | ok mid =>
        have hstep : ∀ L, L2 ≤ L → forIngredients64 P (call L) q ((key, value) :: tl) st =
            forIngredients64 P (call L) q tl mid := by
          intro L hL
          have := hmono L2 L key (F64.mul q ratio) st (.ok mid) (fun e h => by cases h) hL hc1
          simp only [forIngredients64, hratio, this]
        obtain ⟨L3, out, hL3, hset, hrun⟩ := ih mid L2
          (fun kv hkv => hends kv (List.mem_cons_of_mem _ hkv))
          (fun L hL qq M hc => H L (le_trans hL2 hL) qq M (by rw [hstep L hL]; exact hc))
        exact ⟨L3, out, le_trans hL2 hL3, hset, by rw [hstep L3 hL3]; exact hrun⟩

/-- In a catalog where `rank` falls along every edge from an item to an
ingredient of the recipe activated for it, a call with a nesting bound above
the rank of its item comes to an end under some loop budget, provided each
sizing loop at which a budgeted run of the call stops does exit. -/
theorem buildRecipe64_ends (P : Parser64) (recipes : Recipes) (alts : List String)
    (rank : String → Nat)
    (hrank : ∀ k r0, recipes k = some r0 →
      ∀ kv ∈ (substitute recipes alts k r0).2.Ingredients, rank kv.1 < rank k) :
    ∀ (n : Nat) (item : String), rank item < n →
      ∀ (d : Nat) (q : F64) (st : State64) (L0 : Nat), rank item + 1 ≤ d →
      (∀ L, L0 ≤ L → ∀ qq M,
        buildRecipe64 P recipes L d item q alts st = .error (.loop qq M) →
        ∃ L1, sizingLoop64 qq M L1 1 ≠ none) →
      ∃ L out, L0 ≤ L ∧ (∀ e, out = .error e → e = .panic) ∧
        buildRecipe64 P recipes L d item q alts st = out := by
  intro n
  induction n with
  | zero => intro item h; exact absurd h (Nat.not_lt_zero _)
  | succ n ih =>
    intro item hlt d q st L0 hd H
    obtain ⟨d1, rfl⟩ : ∃ d1, d = d1 + 1 := ⟨d - 1, by omega⟩
    cases hrec : recipes item with
    | none =>
      refine ⟨L0, _, le_refl _, ?_, rfl⟩
      intro e h
      simp only [buildRecipe64, hrec] at h
      cases h
    | some r0 =>
      cases hM : fractionToFloat64 P (substitute recipes alts item r0).2.Building.Max with
      | error e =>
        refine ⟨L0, .error e, le_refl _, ?_, ?_⟩
        · intro e1 h1
          simp only [Except.error.injEq] at h1
          subst h1
          exact fractionToFloat64_error P _ _ hM
        · simp only [buildRecipe64, hrec, hM]
      | ok M =>
        have hloop : ∃ L2 k, L0 ≤ L2 ∧ sizingLoop64
            (mergeDemand64 st.table (Table64.Find st.table item) q) M L2 1 = some k := by
          cases hl : sizingLoop64
              (mergeDemand64 st.table (Table64.Find st.table item) q) M L0 1 with
          | some k => exact ⟨L0, k, le_refl _, hl⟩
          | none =>
            have hrun : buildRecipe64 P recipes L0 (d1 + 1) item q alts st =
                .error (.loop (mergeDemand64 st.table (Table64.Find st.table item) q) M) := by
              simp only [buildRecipe64, hrec, hM, buildingSizing64, hl, Option.map_none']
            obtain ⟨L1, hL1⟩ := H L0 (le_refl _) _ _ hrun
            cases hl1 : sizingLoop64
                (mergeDemand64 st.table (Table64.Find st.table item) q) M L1 1 with
            | none => exact absurd hl1 hL1
            | some k =>
              exact ⟨max L0 L1, k, le_max_left _ _,
                sizingLoop64_mono _ M L1 1 k _ hl1 (le_max_right _ _)⟩
        obtain ⟨L2, k, hL2, hk⟩ := hloop
        have hsz : ∀ L, L2 ≤ L → buildingSizing64 L
            (mergeDemand64 st.table (Table64.Find st.table item) q) M =
            some (k, efficiency64
              (mergeDemand64 st.table (Table64.Find st.table item) q) M k) := by
          intro L hL
          simp only [buildingSizing64, sizingLoop64_mono _ M L2 1 k L hk hL, Option.map_some']
        cases hbp : accrueByProducts64 P
            (mergeDemand64 st.table (Table64.Find st.table item) q)
            (substitute recipes alts item r0).2.ByProducts st.byProducts with
        | error e =>
          refine ⟨L2, .error e, hL2, ?_, ?_⟩
          · intro e1 h1
            simp only [Except.error.injEq] at h1
            subst h1
            exact accrueByProducts64_error P _ _ _ _ hbp
          · simp only [buildRecipe64, hrec, hM, hsz L2 (le_refl _), hbp]
        | ok bp =>
          have hstep : ∀ L, L2 ≤ L → buildRecipe64 P recipes L (d1 + 1) item q alts st =
              forIngredients64 P
                (fun key q1 s => buildRecipe64 P recipes L d1 key q1 alts s)
                (mergeDemand64 st.table (Table64.Find st.table item) q)
                (substitute recipes alts item r0).2.Ingredients
                ⟨upsertRow64 st.table (Table64.Find st.table item)
                  ⟨(substitute recipes alts item r0).1,
                    mergeDemand64 st.table (Table64.Find st.table item) q,
                    (substitute recipes alts item r0).2.Building.Typ, k,
                    efficiency64 (mergeDemand64 st.table (Table64.Find st.table item) q) M k⟩,
                  st.rawMaterials, bp⟩ := by
            intro L hL
            simp only [buildRecipe64, hrec, hM, hsz L hL, hbp]
          obtain ⟨L3, out, hL3, hset, hrun⟩ := forIngredients64_ends P
            (fun L key q1 s => buildRecipe64 P recipes L d1 key q1 alts s)
            (mergeDemand64 st.table (Table64.Find st.table item) q)
            (fun L L1 key q1 s o ho hLL hc =>
              buildRecipe64_mono P recipes alts d1 L L1 d1 key q1 s o ho hLL (le_refl _) hc)
            (substitute recipes alts item r0).2.Ingredients _ L2
            (fun kv hkv q1 s K hK =>
              ih kv.1 (by have := hrank item r0 hrec kv hkv; omega) d1 q1 s K
                (by have := hrank item r0 hrec kv hkv; omega) hK)
            (fun L hL qq M0 hc => H L (le_trans hL2 hL) qq M0 (by rw [hstep L hL]; exact hc))
          exact ⟨L3, out, le_trans hL2 hL3, hset, by rw [hstep L3 hL3]; exact hrun⟩

/-! ## Claims -/

/-- C1 fails as stated, in two ways.  For demand 1e19 and maximum 1 no count
is computed: `int` ends at `2^63 - 1 < 1e19`, the counter wraps and the loop
condition holds at every value it can take, so the loop never returns, with
whatever fuel.  And for the `float64` demand 3 * 0.1 and maximum 0.1 the loop
returns 3 although the exact product 0.1 * 3 of the two `float64` values is
below the demand: the loop compares with the rounded product. -/
theorem C1_no_count_beyond_int :
    (∀ fuel : Nat, sizingLoop64 (.fin false (10 ^ 19)) (.fin false 1) fuel 1 = none) ∧
    F64.ofRat (1 / 10) = .fin false (3602879701896397 / 2 ^ 55) ∧
    F64.mul (F64.ofInt 3) (F64.ofRat (1 / 10)) = .fin false (1351079888211149 / 2 ^ 52) ∧
    sizingLoop64 (.fin false (1351079888211149 / 2 ^ 52))
      (.fin false (3602879701896397 / 2 ^ 55)) 10 1 = some 3 ∧
    (3602879701896397 / 2 ^ 55 : ℚ) * 3 < 1351079888211149 / 2 ^ 52 := by
  exact ⟨sizingLoop64_never_1e19, by decide!, by decide!, by decide!, by norm_num⟩

/-- C1, amended: for every finite `float64` building maximum `M > 0` and every
demand `q` other than NaN for which some count `N` of the `int` range
(`1 <= N <= 2^63 - 1`) has `M*N >= q`, the product being the `float64` product
of line 143, the loop of `buildRecipe` (start at 1, increment while
`q > M*n`) returns, and its count `n` is positive, has `M*n >= q`, and no
smaller positive count has. -/
theorem C1_count_least_within_int (mm : ℚ) (q : F64) (N : Int)
    (hM : 0 < mm) (hq : q ≠ .nan) (hN1 : 1 ≤ N) (hN2 : N ≤ maxInt64)
    (hcov : F64.le q (F64.mul (.fin false mm) (F64.ofInt N)) = true) :
    ∃ n : Int, 1 ≤ n ∧ n ≤ N ∧
      (∀ fuel : Nat, N.toNat ≤ fuel → sizingLoop64 q (.fin false mm) fuel 1 = some n) ∧
      F64.le q (F64.mul (.fin false mm) (F64.ofInt n)) = true ∧
      ∀ m : Int, 1 ≤ m → m < n →
        F64.le q (F64.mul (.fin false mm) (F64.ofInt m)) = false := by
  have hgt : ∀ k : Int, F64.gt q (F64.mul (.fin false mm) (F64.ofInt k)) =
      !F64.le q (F64.mul (.fin false mm) (F64.ofInt k)) :=
    fun k => F64.gt_eq_not_le _ _ hq (F64.mul_ofInt_ne_nan false mm hM.ne' k)
  obtain ⟨n, h1, h2, h3, h4, h5⟩ := sizingLoop64_returns q (.fin false mm) N hN2
    (by rw [hgt, hcov]; rfl) (N - 1).toNat 1 (by norm_num) hN1 (by omega)
  refine ⟨n, h1, h2, fun fuel hf => h3 fuel (by omega), ?_, ?_⟩
  · rw [hgt] at h4
    simpa using h4
  · intro m hm1 hm2
    have := h5 m hm1 hm2
    rw [hgt] at this
    simpa using this

/-- C1, amended, at maximum 5 and demand 12: the count 3 covers the demand, and
the loop returns the least count that does (which is 3). -/
theorem C1_count_least_within_int_witness :
    ∃ n : Int, 1 ≤ n ∧ n ≤ 3 ∧
      (∀ fuel : Nat, (3 : Int).toNat ≤ fuel →
        sizingLoop64 (.fin false 12) (.fin false 5) fuel 1 = some n) ∧
      F64.le (.fin false 12) (F64.mul (.fin false 5) (F64.ofInt n)) = true ∧
      ∀ m : Int, 1 ≤ m → m < n →
        F64.le (.fin false 12) (F64.mul (.fin false 5) (F64.ofInt m)) = false :=
  C1_count_least_within_int 5 (.fin false 12) 3 (by norm_num) (by simp) (by norm_num)
    (by decide) (by decide!)

/-- C2 fails as stated: for the smallest positive `float64` demand (about
5e-324) and maximum 10, and for the demand 1.7e308 and maximum 1e308, both
above 0, the count is computed (1 and 2) and the efficiency of line 147 is
0: the quotient underflows in the first case, the product `M*2` overflows to
`+Inf` in the second. -/
theorem C2_efficiency_can_be_zero :
    buildingSizing64 5 (.fin false ((2 : ℚ) ^ (-1074 : ℤ))) (.fin false 10) =
      some (1, .fin false 0) ∧
    buildingSizing64 5 (F64.ofRat (17 * 10 ^ 307)) (F64.ofRat (10 ^ 308)) =
      some (2, .fin false 0) ∧
    F64.mul (F64.ofRat (10 ^ 308)) (F64.ofInt 2) = .inf false := by
  refine ⟨?_, ?_, ?_⟩ <;> decide!

/-- C2, amended: for every finite `float64` building maximum `M > 0` and every
finite demand `q > 0` that some count `N` of the `int` range covers
(`M*N >= q` in `float64`), the sizing of `buildRecipe` returns a count `n` and
the efficiency `q / (M * n) * 100` computed in `float64`; that efficiency is a
finite value with `0 <= efficiency <= 100`, and it is above 0 when the product
`M * n` is finite and the quotient `q / (M * n)` is at least `2^-1022` (it
does not underflow). -/
theorem C2_efficiency_bounds64 (mm qm : ℚ) (N : Int)
    (hM : 0 < mm) (hq : 0 < qm) (hN1 : 1 ≤ N) (hN2 : N ≤ maxInt64)
    (hcov : F64.le (.fin false qm) (F64.mul (.fin false mm) (F64.ofInt N)) = true) :
    ∃ (n : Int) (v : ℚ),
      (∀ fuel : Nat, N.toNat ≤ fuel →
        buildingSizing64 fuel (.fin false qm) (.fin false mm) = some (n, .fin false v)) ∧
      F64.mul (F64.div (.fin false qm) (F64.mul (.fin false mm) (F64.ofInt n)))
        (.fin false 100) = .fin false v ∧
      0 ≤ v ∧ v ≤ 100 ∧
      (∀ pm : ℚ, F64.mul (.fin false mm) (F64.ofInt n) = .fin false pm →
        (2 : ℚ) ^ (-1022 : ℤ) ≤ qm / pm → 0 < v) := by
  have hgt : ∀ k : Int, F64.gt (.fin false qm) (F64.mul (.fin false mm) (F64.ofInt k)) =
      !F64.le (.fin false qm) (F64.mul (.fin false mm) (F64.ofInt k)) :=
    fun k => F64.gt_eq_not_le _ _ (by simp) (F64.mul_ofInt_ne_nan false mm hM.ne' k)
  obtain ⟨n, h1, h2, h3, h4, _⟩ := sizingLoop64_returns (.fin false qm) (.fin false mm) N hN2
    (by rw [hgt, hcov]; rfl) (N - 1).toNat 1 (by norm_num) hN1 (by omega)
  have hle : F64.le (.fin false qm) (F64.mul (.fin false mm) (F64.ofInt n)) = true := by
    rw [hgt] at h4
    simpa using h4
  obtain ⟨v, hv, hv0, hv100, hvpos⟩ := efficiency64_bounds mm qm n hM hq (by omega) hle
  refine ⟨n, v, ?_, hv, hv0, hv100, hvpos⟩
  intro fuel hf
  unfold buildingSizing64
  rw [h3 fuel (by omega)]
  simp [hv]

/-- C2, amended, at maximum 5 and demand 12, covered by the count 3: the
sizing returns, the efficiency is between 0 and 100, and it is above 0 when
the quotient is normal; evaluated, the count is 3 and the efficiency 80. -/
theorem C2_efficiency_bounds64_witness :
    (∃ (n : Int) (v : ℚ),
      (∀ fuel : Nat, (3 : Int).toNat ≤ fuel →
        buildingSizing64 fuel (.fin false 12) (.fin false 5) = some (n, .fin false v)) ∧
      F64.mul (F64.div (.fin false 12) (F64.mul (.fin false 5) (F64.ofInt n)))
        (.fin false 100) = .fin false v ∧
      0 ≤ v ∧ v ≤ 100 ∧
      (∀ pm : ℚ, F64.mul (.fin false 5) (F64.ofInt n) = .fin false pm →
        (2 : ℚ) ^ (-1022 : ℤ) ≤ 12 / pm → 0 < v)) ∧
    buildingSizing64 3 (.fin false 12) (.fin false 5) = some (3, .fin false 80) :=
  ⟨C2_efficiency_bounds64 5 12 3 (by norm_num) (by norm_num) (by norm_num) (by decide)
    (by decide!), by decide!⟩

/-- C3: when the target has a recipe with building maximum `M > 0` whose
ingredients all lack a Catalog entry (distinct names, ratio strings that
parse), the alternates list is empty and the accumulators start empty, the
expansion finishes with exactly one row (the target, quantity `q`, the
recipe's building type, the least positive count `n` with `M*n >= q`,
efficiency `100*q/(M*n)`) and Raw Materials whose keys are exactly the
ingredient names, each holding `q` times its ratio. -/
theorem C3_single_level_expansion (P : Parser) (recipes : Recipes) (target : String)
    (r : Recipe) (M q : ℚ)
    (hrec : recipes target = some r)
    (hmax : fractionToFloat P r.Building.Max = .ok M) (hM : 0 < M)
    (hraw : ∀ kv ∈ r.Ingredients, recipes kv.1 = none)
    (hkeys : (r.Ingredients.map Prod.fst).Nodup)
    (hratio : ∀ kv ∈ r.Ingredients, ∃ ρ, fractionToFloat P kv.2 = .ok ρ)
    (hby : ∀ kv ∈ r.ByProducts, ∃ ρ, fractionToFloat P kv.2 = .ok ρ) :
    ∃ N : Nat, ∀ fuel, N ≤ fuel → ∃ (st : State) (n : Nat),
      expand P recipes fuel target q [] = .ok st ∧
      st.table = [⟨target, q, r.Building.Typ, n, 100 * q / (M * (n : ℚ))⟩] ∧
      0 < n ∧ q ≤ M * (n : ℚ) ∧ (∀ m : Nat, 0 < m → m < n → ¬ (q ≤ M * (m : ℚ))) ∧
      (∀ k, st.rawMaterials.get? k ≠ none ↔ k ∈ r.Ingredients.map Prod.fst) ∧
      (∀ k v, (k, v) ∈ r.Ingredients →
        ∃ ρ, fractionToFloat P v = .ok ρ ∧ st.rawMaterials.get? k = some (q * ρ)) := by
  obtain ⟨N, hN⟩ := buildingSizing_spec q M hM
  refine ⟨N + 2, fun fuel hf => ?_⟩
  obtain ⟨f, rfl⟩ : ∃ f, fuel = f + 1 + 1 := ⟨fuel - 2, by omega⟩
  obtain ⟨n, hsz, hn, hcov, hleast⟩ := hN (f + 1 + 1) (by omega)
  obtain ⟨bp, hbp⟩ := accrueByProducts_ok P q r.ByProducts [] hby
  have heff : efficiencyOf q M n = 100 * q / (M * (n : ℚ)) := by
    unfold efficiencyOf; ring
  have hfindRow : ∀ kv ∈ r.Ingredients,
      Table.Find [(⟨target, q, r.Building.Typ, n, 100 * q / (M * (n : ℚ))⟩ : Row)] kv.1 = none := by
    intro kv hkv
    have hne : target ≠ kv.1 := by
      intro e
      have := hraw kv hkv
      rw [← e, hrec] at this
      cases this
    simp [Table.Find, hne]
  obtain ⟨rm, hrun, hout, hin, hval⟩ :=
    forIngredients_raw P recipes f q [] r.Ingredients
      ⟨[⟨target, q, r.Building.Typ, n, 100 * q / (M * (n : ℚ))⟩], [], bp⟩
      (fun kv hkv => ⟨hraw kv hkv, hfindRow kv hkv, hratio kv hkv⟩)
  refine ⟨⟨[⟨target, q, r.Building.Typ, n, 100 * q / (M * (n : ℚ))⟩], rm, bp⟩, n,
    ?_, rfl, hn, hcov, hleast, ?_, ?_⟩
  · simp only [expand, buildRecipe, State.empty, Table.Find, mergeDemand, hrec, substitute,
      List.foldl_nil, hmax, hsz, hbp, upsertRow, heff, List.nil_append]
    exact hrun
  · intro k
    constructor
    · intro hk
      by_contra hnot
      exact hk (by rw [hout k hnot]; rfl)
    · exact hin k
  · intro k v hkv
    exact hval hkeys k v hkv rfl

/-- C3 on the Widget catalog (Bolt ratio 2, maximum 5) with `q = 12`: the
hypotheses hold there, and the run gives count 3, efficiency 80 and
Bolt = 24. -/
theorem C3_single_level_expansion_witness :
    (∃ N : Nat, ∀ fuel, N ≤ fuel → ∃ (st : State) (n : Nat),
      expand parseDecimal widgetCatalog fuel "Widget" 12 [] = .ok st ∧
      st.table = [⟨"Widget", 12, "Assembler", n, 100 * 12 / (5 * (n : ℚ))⟩] ∧
      0 < n ∧ (12 : ℚ) ≤ 5 * (n : ℚ) ∧ (∀ m : Nat, 0 < m → m < n → ¬ ((12 : ℚ) ≤ 5 * (m : ℚ))) ∧
      (∀ k, st.rawMaterials.get? k ≠ none ↔ k ∈ [("Bolt", "2")].map Prod.fst) ∧
      (∀ k v, (k, v) ∈ [("Bolt", "2")] →
        ∃ ρ, fractionToFloat parseDecimal v = .ok ρ ∧ st.rawMaterials.get? k = some (12 * ρ))) ∧
    expand parseDecimal widgetCatalog 3 "Widget" 12 [] =
      .ok ⟨[⟨"Widget", 12, "Assembler", 3, 80⟩], [("Bolt", 24)], []⟩ :=
  ⟨C3_single_level_expansion parseDecimal widgetCatalog "Widget"
      ⟨[("Bolt", "2")], ⟨"Assembler", "5"⟩, [], []⟩ 5 12
      (by decide!) (by decide!) (by norm_num)
      (by intro kv h; simp only [List.mem_singleton] at h; subst h; decide!)
      (by decide!)
      (by intro kv h; simp only [List.mem_singleton] at h; subst h; exact ⟨2, by decide!⟩)
      (by intro kv h; simp at h),
    by decide!⟩

/-- C4 fails on the code: in the diamond catalog with demand 1 for X, the item
B lies on exactly two ingredient paths (X-A-B and X-Y-A-B), each of demand 1,
so its total demand is 2, but the row of B ends with quantity 3: the second
visit of A passes its merged quantity 2 down to B, on top of the 1 already
there. -/
theorem C4_shared_descendant_overcounted :
    expand parseDecimal diamondCatalog 5 "X" 1 [] =
      .ok ⟨[⟨"X", 1, "Constructor", 1, 10⟩, ⟨"A", 2, "Constructor", 1, 20⟩,
            ⟨"B", 3, "Constructor", 1, 30⟩, ⟨"Y", 1, "Constructor", 1, 10⟩], [], []⟩ ∧
    pathDemand parseDecimal diamondCatalog 5 "X" 1 "B" = 2 ∧
    pathDemand parseDecimal diamondCatalog 5 "X" 1 "A" = 2 := by
  decide!

/-- C5 fails on the code: the two catalogs hold the same ingredient pairs for
X in the two possible visiting orders, and the expansions for demand 1 of X
end with different Raw Materials for R (4 against 5). -/
theorem C5_raw_materials_depend_on_order :
    List.Perm [("A", "1"), ("Y", "1")] [("Y", "1"), ("A", "1")] ∧
    (expand parseDecimal (weightedCatalog [("A", "1"), ("Y", "1")]) 5 "X" 1 []).map
        (fun st => st.rawMaterials) = .ok [("R", 4)] ∧
    (expand parseDecimal (weightedCatalog [("Y", "1"), ("A", "1")]) 5 "X" 1 []).map
        (fun st => st.rawMaterials) = .ok [("R", 5)] ∧
    pathDemand parseDecimal (weightedCatalog [("A", "1"), ("Y", "1")]) 5 "X" 1 "R" = 3 := by
  refine ⟨List.Perm.swap _ _ _, ?_, ?_, ?_⟩ <;> decide!

/-- C6 fails on the code: with the alternate B requested, the expansion of X
reaches A twice (directly and through Y); each visit looks for a row named A,
finds none, substitutes B and appends a row named B, so the table ends with
two rows for B, each with quantity 1. -/
theorem C6_duplicate_row_after_substitution :
    (expand parseDecimal altCatalog 5 "X" 1 ["B"]).map
        (fun st => st.table.map (fun row => (row.Item, row.Quantity))) =
      .ok [("X", 1), ("B", 1), ("Y", 1), ("B", 1)] ∧
    ¬ (["X", "B", "Y", "B"] : List String).Nodup := by
  constructor <;> decide!

/-- C7 fails as stated: B and C are both requested and both appear in the alts
list of A, C is the last of them in the requested list, and yet the active
item after lines 132-139 is B, with the building of B, and that is the row
the expansion writes: after the switch to B the loop compares the remaining
requested names with the alts of B, which lists none. -/
theorem C7_first_match_can_win :
    twoAltCatalog "A" = some ⟨[], ⟨"Smelter", "10"⟩, ["B", "C"], []⟩ ∧
    substitute twoAltCatalog ["B", "C"] "A" ⟨[], ⟨"Smelter", "10"⟩, ["B", "C"], []⟩ =
      ("B", ⟨[], ⟨"Foundry", "10"⟩, [], []⟩) ∧
    expand parseDecimal twoAltCatalog 5 "A" 1 ["B", "C"] =
      .ok ⟨[⟨"B", 1, "Foundry", 1, 10⟩], [], []⟩ := by
  decide!

/-- C7, amended: let the item have the Catalog recipe `r` and let the
requested list be `pre ++ a :: post`, where `a` appears in the alts list of the
recipe that is active when `a` is reached (the recipe of the item until the
first match, the Catalog entry of the matched name after a match) and no name
of `post` appears in the alts list of the Catalog entry of `a`, so that `a` is
the last requested name that matches.  Then lines 132-139 leave `a` as the
active item and the Catalog entry of `a` as the active recipe, and the call
writes the row under the name `a` with the building type of `a` (sized with
the building maximum `M` of `a`) and expands the ingredients of `a`. -/
theorem C7_last_match_wins (P : Parser) (recipes : Recipes) (item : String) (r : Recipe)
    (pre post : List String) (a : String) (fuel : Nat) (q : ℚ) (st : State)
    (M : ℚ) (n : Nat) (e : ℚ) (bp : FloatMap)
    (hrec : recipes item = some r)
    (ha : a ∈ (substitute recipes pre item r).2.Alts)
    (hpost : ∀ b ∈ post, b ∉ ((recipes a).getD Recipe.zero).Alts)
    (hmax : fractionToFloat P ((recipes a).getD Recipe.zero).Building.Max = .ok M)
    (hsz : buildingSizing (fuel + 1)
      (mergeDemand st.table (Table.Find st.table item) q) M = some (n, e))
    (hbp : accrueByProducts P (mergeDemand st.table (Table.Find st.table item) q)
      ((recipes a).getD Recipe.zero).ByProducts st.byProducts = .ok bp) :
    substitute recipes (pre ++ a :: post) item r = (a, (recipes a).getD Recipe.zero) ∧
    buildRecipe P recipes (fuel + 1) item q (pre ++ a :: post) st =
      forIngredients P (fun key q1 s => buildRecipe P recipes fuel key q1 (pre ++ a :: post) s)
        (mergeDemand st.table (Table.Find st.table item) q)
        ((recipes a).getD Recipe.zero).Ingredients
        ⟨upsertRow st.table (Table.Find st.table item)
          ⟨a, mergeDemand st.table (Table.Find st.table item) q,
            ((recipes a).getD Recipe.zero).Building.Typ, n, e⟩, st.rawMaterials, bp⟩ := by
  have hsub : substitute recipes (pre ++ a :: post) item r =
      (a, (recipes a).getD Recipe.zero) := by
    rw [substitute_append, substitute_cons, if_pos ha]
    exact substitute_no_match recipes post a _ hpost
  exact ⟨hsub, buildRecipe_catalogued P recipes fuel item q (pre ++ a :: post) st r
    (a, (recipes a).getD Recipe.zero) M n e bp hrec hsub hmax hsz hbp⟩

/-- C7, amended, on the catalog where A lists B and C, B lists C and C lists
none, with B, C and then the unlisted D requested: C is the last name that
matches (against the alts of B, active after the first match), the active item
is C, and the expansion of A writes the row of C with the building of C. -/
theorem C7_last_match_wins_witness :
    substitute chainAltCatalog (["B"] ++ "C" :: ["D"]) "A"
        ⟨[], ⟨"Smelter", "10"⟩, ["B", "C"], []⟩ =
      ("C", ⟨[], ⟨"Refinery", "10"⟩, [], []⟩) ∧
    buildRecipe parseDecimal chainAltCatalog (1 + 1) "A" 1 (["B"] ++ "C" :: ["D"])
        State.empty =
      .ok ⟨[⟨"C", 1, "Refinery", 1, 10⟩], [], []⟩ :=
  have h := C7_last_match_wins parseDecimal chainAltCatalog "A"
    ⟨[], ⟨"Smelter", "10"⟩, ["B", "C"], []⟩ ["B"] ["D"] "C" 1 1 State.empty 10 1 10 []
    (by decide) (by decide) (by decide) (by decide!) (by decide!) (by decide!)
  ⟨h.1, h.2.trans (by decide!)⟩

/-- C8: when no requested name appears in the alts list of any recipe of the
catalog, the expansion has the same outcome (Build Table, Raw Materials and
By-Products, or the same failure) as the expansion with an empty alternates
list. -/
theorem C8_unmatched_alternates_noop (P : Parser) (recipes : Recipes) (alts : List String)
    (fuel : Nat) (target : String) (q : ℚ)
    (h : ∀ k r, recipes k = some r → ∀ a ∈ alts, a ∉ r.Alts) :
    expand P recipes fuel target q alts = expand P recipes fuel target q [] :=
  buildRecipe_unmatched_alts P recipes alts h fuel target q State.empty

/-- C8 on the catalog whose item A lists the alternate B, with the unlisted
names D and E requested: the hypothesis holds and the run is the one without
alternates, which finishes with the rows X, A, Y. -/
theorem C8_unmatched_alternates_noop_witness :
    (∀ k r, altCatalog k = some r → ∀ a ∈ ["D", "E"], a ∉ r.Alts) ∧
    expand parseDecimal altCatalog 5 "X" 1 ["D", "E"] =
      expand parseDecimal altCatalog 5 "X" 1 [] ∧
    (expand parseDecimal altCatalog 5 "X" 1 []).map
        (fun st => st.table.map (fun row => (row.Item, row.Quantity))) =
      .ok [("X", 1), ("A", 2), ("Y", 1)] :=
  have hyp : ∀ k r, altCatalog k = some r → ∀ a ∈ ["D", "E"], a ∉ r.Alts := by
    intro k r hk a ha
    simp only [List.mem_cons, List.mem_singleton, List.not_mem_nil, or_false] at ha
    unfold altCatalog at hk
    split_ifs at hk <;> cases hk <;> rcases ha with rfl | rfl <;> decide
  ⟨hyp, C8_unmatched_alternates_noop parseDecimal altCatalog ["D", "E"] 5 "X" 1 hyp, by decide!⟩

/-- C9 fails on the code for an invalid left side: "x" is not a number (the
parser reports an error, and `fractionToFloat` fails on "x" alone and on
"2/x"), but on "x/2" `fractionToFloat` returns the value 0, because the error
of the left parse is overwritten by the result of the right parse before it
is tested. -/
theorem C9_left_error_dropped :
    (parseDecimal "x").2 = true ∧
    fractionToFloat parseDecimal "x" = .error .parseError ∧
    fractionToFloat parseDecimal "2/x" = .error .parseError ∧
    fractionToFloat parseDecimal "x/2" = .ok 0 := by
  decide!

/-- C10: for a ratio string `s` without `/` that the parser accepts as the
number `v`, `fractionToFloat` returns `v`; for a ratio string `l/r` with
exactly one `/` whose sides the parser accepts as `a` and `b`, with `b` not
zero, it returns `a / b`. -/
theorem C10_fraction_value (P : Parser) (s l r : String) (v a b : ℚ)
    (hs : '/' ∉ s.data) (hv : P s = (v, false))
    (hl : '/' ∉ l.data) (hr : '/' ∉ r.data)
    (ha : P l = (a, false)) (hb : P r = (b, false)) (hb0 : b ≠ 0) :
    fractionToFloat P s = .ok v ∧ fractionToFloat P (l ++ "/" ++ r) = .ok (a / b) := by
  constructor
  · unfold fractionToFloat
    rw [splitSlash_whole s hs]
    simp [hv]
  · rw [fractionToFloat_two_sided P l r hl hr]
    simp [ha, hb, hb0]

/-- C10 on "4" and on "3/2": the values are 4 and 1.5. -/
theorem C10_fraction_value_witness :
    fractionToFloat parseDecimal "4" = .ok 4 ∧
    fractionToFloat parseDecimal ("3" ++ "/" ++ "2") = .ok (3 / 2) ∧
    ("3" ++ "/" ++ "2" : String) = "3/2" ∧ (3 / 2 : ℚ) = 1.5 :=
  have h := C10_fraction_value parseDecimal "4" "3" "2" 4 3 2
    (by decide) (by decide!) (by decide) (by decide) (by decide!) (by decide!) (by norm_num)
  ⟨h.1, h.2, by decide, by norm_num⟩

/-- C12: for an item with no Catalog entry and no row in the Build Table,
and every quantity `q`, a call of `buildRecipe` returns at the first level
(one unit of fuel is enough, so no recursive call is made), leaves the Build
Table and the By-Products as they were, leaves every other Raw Materials
entry as it was, and sets the entry of the item to its previous value (0 if
absent) plus `q`. -/
theorem C12_raw_item_call (P : Parser) (recipes : Recipes) (item : String) (q : ℚ)
    (alts : List String) (st : State)
    (hraw : recipes item = none) (hrow : ∀ row ∈ st.table, row.Item ≠ item) :
    ∃ st1 : State, (∀ fuel, buildRecipe P recipes (fuel + 1) item q alts st = .ok st1) ∧
      st1.table = st.table ∧ st1.byProducts = st.byProducts ∧
      (∀ k, k ≠ item → st1.rawMaterials.get? k = st.rawMaterials.get? k) ∧
      st1.rawMaterials.get? item = some (st.rawMaterials.get item + q) := by
  have hfind := (Table.Find_eq_none_iff st.table item).mpr hrow
  refine ⟨⟨st.table, addRaw st.rawMaterials item q, st.byProducts⟩,
    fun fuel => buildRecipe_raw P recipes fuel item q alts st hraw hfind, rfl, rfl, ?_, ?_⟩
  · intro k hk
    exact get?_addRaw_other _ _ _ _ hk
  · exact get?_addRaw_same _ _ _

/-- C12 on the Widget catalog: a call on Bolt with quantity 6, when the table
holds the Widget row and Bolt already stands at 24 next to Nut at 1, returns
with Bolt = 30 and nothing else changed. -/
theorem C12_raw_item_call_witness :
    ∃ st1 : State,
      (∀ fuel, buildRecipe parseDecimal widgetCatalog (fuel + 1) "Bolt" 6 []
        ⟨[⟨"Widget", 12, "Assembler", 3, 80⟩], [("Nut", 1), ("Bolt", 24)], [("Slag", 2)]⟩ =
          .ok st1) ∧
      st1.table = [⟨"Widget", 12, "Assembler", 3, 80⟩] ∧ st1.byProducts = [("Slag", 2)] ∧
      (∀ k, k ≠ "Bolt" →
        st1.rawMaterials.get? k = FloatMap.get? [("Nut", 1), ("Bolt", 24)] k) ∧
      st1.rawMaterials.get? "Bolt" = some (FloatMap.get [("Nut", 1), ("Bolt", 24)] "Bolt" + 6) :=
  C12_raw_item_call parseDecimal widgetCatalog "Bolt" 6 []
    ⟨[⟨"Widget", 12, "Assembler", 3, 80⟩], [("Nut", 1), ("Bolt", 24)], [("Slag", 2)]⟩
    (by decide) (by decide)

/-- C13 fails as stated: for the `float64` demand 3 * 0.1 and the maximum 0.1
the linear search returns 3, while the closed form gives 4, both on the exact
values of the two `float64` and on their `float64` quotient
(3.0000000000000004): the search compares the demand with the rounded product
0.1 * 3, which equals the demand. -/
theorem C13_search_below_closed_form :
    sizingLoop64 (.fin false (1351079888211149 / 2 ^ 52))
      (.fin false (3602879701896397 / 2 ^ 55)) 10 1 = some 3 ∧
    closedFormCount (1351079888211149 / 2 ^ 52) (3602879701896397 / 2 ^ 55) = 4 ∧
    F64.div (.fin false (1351079888211149 / 2 ^ 52))
      (.fin false (3602879701896397 / 2 ^ 55)) = .fin false (6755399441055745 / 2 ^ 51) ∧
    closedFormCount (6755399441055745 / 2 ^ 51) 1 = 4 ∧
    F64.mul (.fin false (3602879701896397 / 2 ^ 55)) (F64.ofInt 3) =
      .fin false (1351079888211149 / 2 ^ 52) := by
  refine ⟨?_, ?_, ?_, ?_, ?_⟩ <;> decide!

/-- C13, amended: for every finite `float64` building maximum `M > 0` and every
finite demand `q` (also `q <= 0`), when the closed form
`max(1, ceil(q / M))` lies in the `int` range and the `float64` products `M * n`
of line 143 are exact for the counts `n` up to the closed form, the linear
search of `buildRecipe` from 1 returns the closed form. -/
theorem C13_closed_form_when_exact (mm : ℚ) (qneg : Bool) (qm : ℚ)
    (hM : 0 < mm)
    (hrange : (closedFormCount (F64.signed qneg qm) mm : Int) ≤ maxInt64)
    (hexact : ∀ n : Nat, 1 ≤ n → n ≤ closedFormCount (F64.signed qneg qm) mm →
      F64.mul (.fin false mm) (F64.ofInt (n : Int)) = .fin false (mm * (n : ℚ))) :
    ∀ fuel : Nat, closedFormCount (F64.signed qneg qm) mm ≤ fuel →
      sizingLoop64 (.fin qneg qm) (.fin false mm) fuel 1 =
        some (closedFormCount (F64.signed qneg qm) mm : Int) := by
  have hc1 : 1 ≤ closedFormCount (F64.signed qneg qm) mm := le_max_left _ _
  have hcover : ∀ n : Nat, F64.signed qneg qm ≤ mm * (n : ℚ) ↔
      ⌈F64.signed qneg qm / mm⌉₊ ≤ n := by
    intro n
    rw [Nat.ceil_le, div_le_iff₀ hM, mul_comm]
  have hcond : ∀ n : Nat, 1 ≤ n → n ≤ closedFormCount (F64.signed qneg qm) mm →
      F64.gt (.fin qneg qm) (F64.mul (.fin false mm) (F64.ofInt (n : Int))) =
        decide (mm * (n : ℚ) < F64.signed qneg qm) := by
    intro n h1 h2
    rw [hexact n h1 h2]
    simp [F64.gt, F64.lt, F64.signed]
  have hcovered : F64.gt (.fin qneg qm) (F64.mul (.fin false mm)
      (F64.ofInt ((closedFormCount (F64.signed qneg qm) mm : Nat) : Int))) = false := by
    rw [hcond _ hc1 (le_refl _)]
    have : F64.signed qneg qm ≤ mm * ((closedFormCount (F64.signed qneg qm) mm : Nat) : ℚ) :=
      (hcover _).mpr (le_max_right _ _)
    simpa using this
  obtain ⟨n, h1, h2, h3, h4, _⟩ := sizingLoop64_returns (.fin qneg qm) (.fin false mm)
    (closedFormCount (F64.signed qneg qm) mm : Int) hrange hcovered
    ((closedFormCount (F64.signed qneg qm) mm : Int) - 1).toNat 1 (by norm_num)
    (by exact_mod_cast hc1) (by omega)
  have hn : n = (closedFormCount (F64.signed qneg qm) mm : Int) := by
    by_contra hne
    have hlt : n < (closedFormCount (F64.signed qneg qm) mm : Int) := lt_of_le_of_ne h2 hne
    obtain ⟨k, rfl⟩ : ∃ k : Nat, n = (k : Int) := ⟨n.toNat, by omega⟩
    have hk1 : 1 ≤ k := by exact_mod_cast h1
    have hk2 : k < closedFormCount (F64.signed qneg qm) mm := by exact_mod_cast hlt
    rw [hcond k hk1 hk2.le] at h4
    have hnot : ¬ (mm * (k : ℚ) < F64.signed qneg qm) := by simpa using h4
    have hk3 : ⌈F64.signed qneg qm / mm⌉₊ ≤ k := (hcover k).mp (not_lt.mp hnot)
    have : closedFormCount (F64.signed qneg qm) mm ≤ k := max_le hk1 hk3
    omega
  intro fuel hf
  rw [← hn]
  exact h3 fuel (by omega)

/-- C13, amended, at maximum 5 and demand 12: the closed form is 3, the
products 5, 10, 15 are exact, and the search returns 3. -/
theorem C13_closed_form_when_exact_witness :
    closedFormCount (F64.signed false 12) 5 = 3 ∧
    ∀ fuel : Nat, closedFormCount (F64.signed false 12) 5 ≤ fuel →
      sizingLoop64 (.fin false 12) (.fin false 5) fuel 1 =
        some (closedFormCount (F64.signed false 12) 5 : Int) :=
  have e : closedFormCount (F64.signed false 12) 5 = 3 := by decide!
  ⟨e, C13_closed_form_when_exact 5 false 12 (by norm_num)
    (by rw [e]; decide)
    (by
      intro n h1 h2
      rw [e] at h2
      interval_cases n <;> decide!)⟩

/-- C11 fails on the code: in the by-product catalog with demand 1 for X,
`buildRecipe` is invoked on A twice, each time with quantity 1 (from X and
from Y), and A yields 1 W per unit, so the sum over the invocations is 2, but
the By-Products end with W = 3.  The second invocation, run on its own on the
state the first one leaves (row of A at 1, W at 1) and called with quantity 1,
raises W by 2: lines 149-156 use the quantity merged at line 118. -/
theorem C11_by_product_overcounted :
    expand parseDecimal byProductCatalog 5 "X" 1 [] =
      .ok ⟨[⟨"X", 1, "Constructor", 1, 10⟩, ⟨"A", 2, "Constructor", 1, 20⟩,
            ⟨"Y", 1, "Constructor", 1, 10⟩], [], [("W", 3)]⟩ ∧
    buildRecipe parseDecimal byProductCatalog 2 "A" 1 []
        ⟨[⟨"X", 1, "Constructor", 1, 10⟩], [], []⟩ =
      .ok ⟨[⟨"X", 1, "Constructor", 1, 10⟩, ⟨"A", 1, "Constructor", 1, 10⟩], [], [("W", 1)]⟩ ∧
    buildRecipe parseDecimal byProductCatalog 2 "A" 1 []
        ⟨[⟨"X", 1, "Constructor", 1, 10⟩, ⟨"A", 1, "Constructor", 1, 10⟩,
          ⟨"Y", 1, "Constructor", 1, 10⟩], [], [("W", 1)]⟩ =
      .ok ⟨[⟨"X", 1, "Constructor", 1, 10⟩, ⟨"A", 2, "Constructor", 1, 20⟩,
            ⟨"Y", 1, "Constructor", 1, 10⟩], [], [("W", 3)]⟩ := by
  decide!

/-- C17: with an empty alternates list, a completed call of `buildRecipe`
neither removes nor reorders rows: the sequence of item names of the Build
Table before the call is a prefix of the sequence after the call.  (Holds for
every catalog; acyclicity is not needed once the call completes.) -/
theorem C17_rows_stay_in_order (P : Parser) (recipes : Recipes) (fuel : Nat) (item : String)
    (q : ℚ) (st st1 : State)
    (hrun : buildRecipe P recipes fuel item q [] st = .ok st1) :
    st.table.map (fun r => r.Item) <+: st1.table.map (fun r => r.Item) := by
  refine buildRecipe_rel P recipes [] (fun _ => True)
    (fun a b : State =>
      a.table.map (fun r : Row => r.Item) <+: b.table.map (fun r : Row => r.Item))
    (fun s => List.prefix_refl _) (fun a b c hab hbc => List.IsPrefix.trans hab hbc)
    (fun _ _ _ _ _ _ => trivial) ?_ ?_ fuel item q st st1 trivial hrun
  · intro item q st _ _
    exact List.prefix_refl _
  · intro item q st r0 M L n e bp _ _ _ _ _
    exact upsertRow_names_prefix st.table item _ rfl

/-- C17 on the diamond catalog: the call on Y, made when the rows X, A, B
exist, completes with the rows X, A, B, Y. -/
theorem C17_rows_stay_in_order_witness :
    buildRecipe parseDecimal diamondCatalog 4 "Y" 1 []
        ⟨[⟨"X", 1, "Constructor", 1, 10⟩, ⟨"A", 1, "Constructor", 1, 10⟩,
          ⟨"B", 1, "Constructor", 1, 10⟩], [], []⟩ =
      .ok ⟨[⟨"X", 1, "Constructor", 1, 10⟩, ⟨"A", 2, "Constructor", 1, 20⟩,
            ⟨"B", 3, "Constructor", 1, 30⟩, ⟨"Y", 1, "Constructor", 1, 10⟩], [], []⟩ ∧
    ["X", "A", "B"] <+: ["X", "A", "B", "Y"] :=
  have hrun : buildRecipe parseDecimal diamondCatalog 4 "Y" 1 []
        ⟨[⟨"X", 1, "Constructor", 1, 10⟩, ⟨"A", 1, "Constructor", 1, 10⟩,
          ⟨"B", 1, "Constructor", 1, 10⟩], [], []⟩ =
      .ok ⟨[⟨"X", 1, "Constructor", 1, 10⟩, ⟨"A", 2, "Constructor", 1, 20⟩,
            ⟨"B", 3, "Constructor", 1, 30⟩, ⟨"Y", 1, "Constructor", 1, 10⟩], [], []⟩ := by
    decide!
  ⟨hrun, C17_rows_stay_in_order parseDecimal diamondCatalog 4 "Y" 1 _ _ hrun⟩

/-- C18: in every expansion that completes from empty accumulators (any
catalog, target, quantity and alternates list), every row of the final Build
Table agrees with the Catalog entry of its own item name: the item has an
entry, the building type is that entry's, the building count is the least
positive `n` with `max * n >= quantity` for that entry's maximum, and the
efficiency is `quantity / (max * count) * 100`.  The parser is assumed to
reject the empty string, as `strconv.ParseFloat` does. -/
theorem C18_rows_consistent (P : Parser) (recipes : Recipes) (fuel : Nat) (target : String)
    (q : ℚ) (alts : List String) (st : State)
    (hempty : (P "").2 = true)
    (hrun : expand P recipes fuel target q alts = .ok st) :
    ∀ row ∈ st.table, RowConsistent P recipes row := by
  have key := buildRecipe_rel P recipes alts (fun _ => True)
    (fun a b : State => (∀ row ∈ a.table, RowConsistent P recipes row) →
      ∀ row ∈ b.table, RowConsistent P recipes row)
    (fun s h => h) (fun a b c hab hbc h => hbc (hab h))
    (fun _ _ _ _ _ _ => trivial)
    (fun item q st _ _ h => h)
    (by
      intro item q st r0 M L n e bp _ hrec hmax hsz _ hinv row hrow
      rcases mem_upsertRow _ _ _ _ hrow with hold | hnew
      · exact hinv row hold
      · subst hnew
        obtain ⟨h1, h2, h3, h4⟩ := buildingSizing_some L _ M n e hsz
        exact ⟨_, M, active_is_entry P recipes hempty alts item r0 M hrec hmax, rfl, hmax,
          h1, h2, h3, h4⟩)
    fuel target q State.empty st trivial hrun
  exact key (fun row hrow => by simp [State.empty] at hrow)

/-- C18 on the catalog with an alternate, B requested: the run completes and
each of its rows (X, B, Y, B) agrees with the Catalog entry of its item. -/
theorem C18_rows_consistent_witness :
    expand parseDecimal altCatalog 5 "X" 1 ["B"] =
      .ok ⟨[⟨"X", 1, "Constructor", 1, 10⟩, ⟨"B", 1, "Constructor", 1, 10⟩,
            ⟨"Y", 1, "Constructor", 1, 10⟩, ⟨"B", 1, "Constructor", 1, 10⟩], [], []⟩ ∧
    ∀ row ∈ [(⟨"X", 1, "Constructor", 1, 10⟩ : Row), ⟨"B", 1, "Constructor", 1, 10⟩,
        ⟨"Y", 1, "Constructor", 1, 10⟩, ⟨"B", 1, "Constructor", 1, 10⟩],
      RowConsistent parseDecimal altCatalog row :=
  have hrun : expand parseDecimal altCatalog 5 "X" 1 ["B"] =
      .ok ⟨[⟨"X", 1, "Constructor", 1, 10⟩, ⟨"B", 1, "Constructor", 1, 10⟩,
            ⟨"Y", 1, "Constructor", 1, 10⟩, ⟨"B", 1, "Constructor", 1, 10⟩], [], []⟩ := by
    decide!
  ⟨hrun, C18_rows_consistent parseDecimal altCatalog 5 "X" 1 ["B"] _ (by decide!) hrun⟩

/-- C19: in every expansion that completes from empty accumulators, every key
of the final Raw Materials is an item with no Catalog entry, and no key of the
Raw Materials is the item of a row of the Build Table.  The parser is assumed
to reject the empty string, as `strconv.ParseFloat` does. -/
theorem C19_raw_keys_uncatalogued (P : Parser) (recipes : Recipes) (fuel : Nat) (target : String)
    (q : ℚ) (alts : List String) (st : State)
    (hempty : (P "").2 = true)
    (hrun : expand P recipes fuel target q alts = .ok st) :
    (∀ k, st.rawMaterials.get? k ≠ none → recipes k = none) ∧
    (∀ k, st.rawMaterials.get? k ≠ none → ∀ row ∈ st.table, row.Item ≠ k) := by
  have key := buildRecipe_rel P recipes alts (fun _ => True)
    (fun a b : State =>
      ((∀ k, a.rawMaterials.get? k ≠ none → recipes k = none) ∧
        (∀ row ∈ a.table, recipes row.Item ≠ none)) →
      ((∀ k, b.rawMaterials.get? k ≠ none → recipes k = none) ∧
        (∀ row ∈ b.table, recipes row.Item ≠ none)))
    (fun s h => h) (fun a b c hab hbc h => hbc (hab h))
    (fun _ _ _ _ _ _ => trivial)
    (by
      intro item q st _ hnone hinv
      refine ⟨fun k hk => ?_, hinv.2⟩
      rcases get?_addRaw_ne_none _ _ _ _ hk with h | h
      · rw [h]; exact hnone
      · exact hinv.1 k h)
    (by
      intro item q st r0 M L n e bp _ hrec hmax _ _ hinv
      refine ⟨hinv.1, fun row hrow => ?_⟩
      rcases mem_upsertRow _ _ _ _ hrow with hold | hnew
      · exact hinv.2 row hold
      · subst hnew
        show recipes (substitute recipes alts item r0).1 ≠ none
        rw [active_is_entry P recipes hempty alts item r0 M hrec hmax]
        exact Option.some_ne_none _)
    fuel target q State.empty st trivial hrun
  obtain ⟨hkeys, hrows⟩ := key
    ⟨fun k hk => absurd rfl hk, fun row hrow => by simp [State.empty] at hrow⟩
  refine ⟨hkeys, fun k hk row hrow hitem => ?_⟩
  have h1 := hkeys k hk
  rw [← hitem] at h1
  exact hrows row hrow h1

/-- C19 on the weighted catalog: the run completes with the rows X, A, Y and
the single raw material R, which has no Catalog entry and no row. -/
theorem C19_raw_keys_uncatalogued_witness :
    expand parseDecimal (weightedCatalog [("A", "1"), ("Y", "1")]) 5 "X" 1 [] =
      .ok ⟨[⟨"X", 1, "Constructor", 1, 10⟩, ⟨"A", 3, "Constructor", 1, 30⟩,
            ⟨"Y", 1, "Constructor", 1, 10⟩], [("R", 4)], []⟩ ∧
    (∀ k, FloatMap.get? [("R", 4)] k ≠ none →
      weightedCatalog [("A", "1"), ("Y", "1")] k = none) ∧
    (∀ k, FloatMap.get? [("R", 4)] k ≠ none →
      ∀ row ∈ [(⟨"X", 1, "Constructor", 1, 10⟩ : Row), ⟨"A", 3, "Constructor", 1, 30⟩,
        ⟨"Y", 1, "Constructor", 1, 10⟩], row.Item ≠ k) :=
  have hrun : expand parseDecimal (weightedCatalog [("A", "1"), ("Y", "1")]) 5 "X" 1 [] =
      .ok ⟨[⟨"X", 1, "Constructor", 1, 10⟩, ⟨"A", 3, "Constructor", 1, 30⟩,
            ⟨"Y", 1, "Constructor", 1, 10⟩], [("R", 4)], []⟩ := by
    decide!
  ⟨hrun, C19_raw_keys_uncatalogued parseDecimal (weightedCatalog [("A", "1"), ("Y", "1")])
    5 "X" 1 [] _ (by decide!) hrun⟩

/-- C16: in an acyclic catalog (`rank` falls along every ingredient edge) and
with an empty alternates list, when `buildRecipe` is called with quantity `q`
on a catalogued item whose row `Table.Find` finds at index `i`, holding
quantity `q0`, and the call completes, the row at index `i` is still the
item's row, its quantity is `q0 + q`, and its building count and efficiency
are those of `q0 + q`: the least positive `n` with `M*n >= q0 + q` and
`(q0 + q) / (M*n) * 100`. -/
theorem C16_demand_merge (P : Parser) (recipes : Recipes) (rank : String → Nat)
    (fuel : Nat) (item : String) (q : ℚ) (st st1 : State) (r : Recipe) (i : Nat) (row0 : Row)
    (hrank : ∀ k r, recipes k = some r → ∀ kv ∈ r.Ingredients, rank kv.1 < rank k)
    (hrec : recipes item = some r)
    (hfind : Table.Find st.table item = some i)
    (hrow0 : st.table.get? i = some row0)
    (hrun : buildRecipe P recipes fuel item q [] st = .ok st1) :
    ∃ (M : ℚ) (n : Nat), fractionToFloat P r.Building.Max = .ok M ∧
      st1.table.get? i = some ⟨item, row0.Quantity + q, r.Building.Typ, n,
        (row0.Quantity + q) / (M * (n : ℚ)) * 100⟩ ∧
      0 < n ∧ row0.Quantity + q ≤ M * (n : ℚ) ∧
      ∀ m : Nat, 0 < m → m < n → ¬ (row0.Quantity + q ≤ M * (m : ℚ)) := by
  obtain ⟨M, L, n, e, hM, hsz, hget⟩ :=
    buildRecipe_own_row P recipes rank hrank fuel item q st st1 r hrec hrun
  have hmerge : mergeDemand st.table (Table.Find st.table item) q = row0.Quantity + q := by
    rw [hfind]
    simp only [mergeDemand, Table.quantityAt, hrow0]
    ring
  rw [hmerge] at hsz hget
  rw [hfind] at hget
  obtain ⟨h1, h2, h3, h4⟩ := buildingSizing_some L _ M n e hsz
  subst h4
  exact ⟨M, n, hM, hget, h1, h2, h3⟩

/-- C16 on the diamond catalog: A has its row at index 1 with quantity 1;
the call on A with quantity 1 completes and leaves the row of A at index 1
with quantity 2, count 1 and efficiency 20. -/
theorem C16_demand_merge_witness :
    ∃ (M : ℚ) (n : Nat), fractionToFloat parseDecimal "10" = .ok M ∧
      List.get? [(⟨"X", 1, "Constructor", 1, 10⟩ : Row), ⟨"A", 2, "Constructor", 1, 20⟩,
          ⟨"B", 3, "Constructor", 1, 30⟩, ⟨"Y", 1, "Constructor", 1, 10⟩] 1 =
        some ⟨"A", 1 + 1, "Constructor", n, (1 + 1) / (M * (n : ℚ)) * 100⟩ ∧
      0 < n ∧ (1 + 1 : ℚ) ≤ M * (n : ℚ) ∧
      ∀ m : Nat, 0 < m → m < n → ¬ ((1 + 1 : ℚ) ≤ M * (m : ℚ)) :=
  C16_demand_merge parseDecimal diamondCatalog diamondRank 4 "A" 1
    ⟨[⟨"X", 1, "Constructor", 1, 10⟩, ⟨"A", 1, "Constructor", 1, 10⟩,
      ⟨"B", 1, "Constructor", 1, 10⟩, ⟨"Y", 1, "Constructor", 1, 10⟩], [], []⟩
    ⟨[⟨"X", 1, "Constructor", 1, 10⟩, ⟨"A", 2, "Constructor", 1, 20⟩,
      ⟨"B", 3, "Constructor", 1, 30⟩, ⟨"Y", 1, "Constructor", 1, 10⟩], [], []⟩
    (plainRecipe [("B", "1")] []) 1 ⟨"A", 1, "Constructor", 1, 10⟩
    diamondRank_falls (by decide) (by decide) (by decide) (by decide!)

/-- C20: in an acyclic catalog (`rank` falls along every ingredient edge), for
a target with a Catalog entry, every quantity `q` and an empty alternates
list, the Build Table the expansion returns is not empty and its first row is
the target with quantity exactly `q`, so the read of `table[0]` in
`PrintTable` is in bounds and shows the request. -/
theorem C20_first_row_is_target (P : Parser) (recipes : Recipes) (rank : String → Nat)
    (fuel : Nat) (target : String) (q : ℚ) (st : State) (r : Recipe)
    (hrank : ∀ k r, recipes k = some r → ∀ kv ∈ r.Ingredients, rank kv.1 < rank k)
    (hrec : recipes target = some r)
    (hrun : expand P recipes fuel target q [] = .ok st) :
    ∃ (row : Row) (rest : Table),
      st.table = row :: rest ∧ row.Item = target ∧ row.Quantity = q := by
  obtain ⟨M, L, n, e, _, _, hget⟩ :=
    buildRecipe_own_row P recipes rank hrank fuel target q State.empty st r hrec hrun
  simp only [State.empty, Table.Find, mergeDemand, Option.getD_none, List.length_nil] at hget
  cases htab : st.table with
  | nil => rw [htab] at hget; cases hget
  | cons row rest =>
    rw [htab] at hget
    simp only [List.get?_cons_zero, Option.some.injEq] at hget
    subst hget
    exact ⟨_, rest, rfl, rfl, rfl⟩

/-- C20 on the diamond catalog: the expansion of X with quantity 7 completes
and its first row is X with quantity 7. -/
theorem C20_first_row_is_target_witness :
    expand parseDecimal diamondCatalog 8 "X" 7 [] =
      .ok ⟨[⟨"X", 7, "Constructor", 1, 70⟩, ⟨"A", 14, "Constructor", 2, 70⟩,
            ⟨"B", 21, "Constructor", 3, 70⟩, ⟨"Y", 7, "Constructor", 1, 70⟩], [], []⟩ ∧
    ∃ (row : Row) (rest : Table),
      [(⟨"X", 7, "Constructor", 1, 70⟩ : Row), ⟨"A", 14, "Constructor", 2, 70⟩,
        ⟨"B", 21, "Constructor", 3, 70⟩, ⟨"Y", 7, "Constructor", 1, 70⟩] = row :: rest ∧
      row.Item = "X" ∧ row.Quantity = 7 :=
  have hrun : expand parseDecimal diamondCatalog 8 "X" 7 [] =
      .ok ⟨[⟨"X", 7, "Constructor", 1, 70⟩, ⟨"A", 14, "Constructor", 2, 70⟩,
            ⟨"B", 21, "Constructor", 3, 70⟩, ⟨"Y", 7, "Constructor", 1, 70⟩], [], []⟩ := by
    decide!
  ⟨hrun, C20_first_row_is_target parseDecimal diamondCatalog diamondRank 8 "X" 7 _
    (plainRecipe [("A", "1"), ("Y", "1")] []) diamondRank_falls (by decide) hrun⟩

/-- C14: for every catalog, target, quantity and alternates list, when the
expansion returns, the expansion on the same catalog with the by-products of
every recipe removed returns the same Build Table and the same Raw Materials
(and no By-Products): by-product yields are not netted against ingredient or
raw-material demand. -/
theorem C14_by_products_not_netted (P : Parser) (recipes : Recipes) (fuel : Nat)
    (target : String) (q : ℚ) (alts : List String) (st : State)
    (hrun : expand P recipes fuel target q alts = .ok st) :
    expand P (stripByProducts recipes) fuel target q alts =
      .ok ⟨st.table, st.rawMaterials, []⟩ :=
  buildRecipe_strip P recipes alts fuel target q State.empty st [] hrun

/-- C14 on the by-product catalog: the run for X returns the rows X, A, Y with
W = 3, and the run on the catalog without by-products returns the same rows
and no by-product. -/
theorem C14_by_products_not_netted_witness :
    expand parseDecimal byProductCatalog 5 "X" 1 [] =
      .ok ⟨[⟨"X", 1, "Constructor", 1, 10⟩, ⟨"A", 2, "Constructor", 1, 20⟩,
            ⟨"Y", 1, "Constructor", 1, 10⟩], [], [("W", 3)]⟩ ∧
    expand parseDecimal (stripByProducts byProductCatalog) 5 "X" 1 [] =
      .ok ⟨[⟨"X", 1, "Constructor", 1, 10⟩, ⟨"A", 2, "Constructor", 1, 20⟩,
            ⟨"Y", 1, "Constructor", 1, 10⟩], [], []⟩ :=
  have hrun : expand parseDecimal byProductCatalog 5 "X" 1 [] =
      .ok ⟨[⟨"X", 1, "Constructor", 1, 10⟩, ⟨"A", 2, "Constructor", 1, 20⟩,
            ⟨"Y", 1, "Constructor", 1, 10⟩], [], [("W", 3)]⟩ := by
    decide!
  ⟨hrun, C14_by_products_not_netted parseDecimal byProductCatalog 5 "X" 1 [] _ hrun⟩

/-- C15 fails as stated: the catalog with the one recipe T (no ingredient,
building maximum "1", which parses to 1 > 0) is acyclic and well formed, and
the quantity 10^19 is finite, but for every loop budget and every nesting
bound of at least one call the run stops inside the sizing loop of T, and that
loop returns under no budget: its condition `10^19 > 1 * float64(n)` holds at
every count of the 64-bit `int` range, over which `buildingQuantity++` cycles.
The expansion does not terminate. -/
theorem C15_sizing_loop_never_exits :
    unitCatalog "T" = some ⟨[], ⟨"Constructor", "1"⟩, [], []⟩ ∧
    fractionToFloat64 parseDecimal64 "1" = .ok (.fin false 1) ∧
    F64.gt (.fin false 1) (.fin false 0) = true ∧
    (∀ L d : Nat, expand64 parseDecimal64 unitCatalog L (d + 1) "T" (.fin false (10 ^ 19)) [] =
      .error (.loop (.fin false (10 ^ 19)) (.fin false 1))) ∧
    ∀ L : Nat, sizingLoop64 (.fin false (10 ^ 19)) (.fin false 1) L 1 = none := by
  have hparse : fractionToFloat64 parseDecimal64 "1" = .ok (.fin false 1) := by decide!
  have hcat : unitCatalog "T" = some ⟨[], ⟨"Constructor", "1"⟩, [], []⟩ := by decide
  refine ⟨hcat, hparse, by decide!, ?_, sizingLoop64_never_1e19⟩
  intro L d
  simp only [expand64, buildRecipe64, State64.empty, Table64.Find, mergeDemand64, hcat,
    substitute_nil, hparse, buildingSizing64, sizingLoop64_never_1e19 L, Option.map_none']

/-- C15, amended: in a catalog whose production graph is acyclic (`rank` falls
along every edge from an item to an ingredient of the recipe the expansion
activates for it), for every target, every quantity and every
requested-alternates list, the calls never nest deeper than `rank target + 1`,
whatever the loop budget; and if every sizing loop at which a budgeted run
stops does exit, then the expansion terminates: some loop budget gives an
outcome (the three accumulators, or the panic of a malformed ratio), and every
larger loop budget and every larger nesting bound gives the same outcome. -/
theorem C15_terminates_when_loops_exit (P : Parser64) (recipes : Recipes)
    (alts : List String) (rank : String → Nat) (target : String) (q : F64) (d : Nat)
    (hrank : ∀ k r0, recipes k = some r0 →
      ∀ kv ∈ (substitute recipes alts k r0).2.Ingredients, rank kv.1 < rank k)
    (hd : rank target + 1 ≤ d) :
    (∀ L : Nat, expand64 P recipes L d target q alts ≠ .error .depth) ∧
    ((∀ (L : Nat) (qq M : F64),
        expand64 P recipes L d target q alts = .error (.loop qq M) →
        ∃ L1, sizingLoop64 qq M L1 1 ≠ none) →
      ∃ (L : Nat) (out : Except Stop State64), (∀ e, out = .error e → e = .panic) ∧
        ∀ L1 d1 : Nat, L ≤ L1 → d ≤ d1 → expand64 P recipes L1 d1 target q alts = out) := by
  refine ⟨fun L => buildRecipe64_ne_depth P recipes alts rank hrank L (rank target + 1) target
    (Nat.lt_succ_self _) d q State64.empty hd, ?_⟩
  intro hexit
  obtain ⟨L, out, _, hset, hrun⟩ := buildRecipe64_ends P recipes alts rank hrank
    (rank target + 1) target (Nat.lt_succ_self _) d q State64.empty 0 hd
    (fun L _ qq M h => hexit L qq M h)
  exact ⟨L, out, hset, fun L1 d1 hL hd1 =>
    buildRecipe64_mono P recipes alts d L L1 d1 target q State64.empty out hset hL hd1 hrun⟩

/-- C15 on the diamond catalog, ranked X 3, Y 2, A 1, B 0, with demand 7 for X:
no loop budget makes the calls nest deeper than 4; the sizing loops at which
the budgets 0, 1 and 2 stop (quantities 7, 14 and 21 against the maximum 10)
exit within 3 tests, so the expansion terminates; the loop budget 3 with the
nesting bound 4 gives the rows X, A, B, Y, and the nesting bound 3 is too
small. -/
theorem C15_terminates_when_loops_exit_witness :
    (∀ L : Nat, expand64 parseDecimal64 diamondCatalog L 4 "X" (.fin false 7) [] ≠
      .error .depth) ∧
    (∃ (L : Nat) (out : Except Stop State64), (∀ e, out = .error e → e = .panic) ∧
      ∀ L1 d1 : Nat, L ≤ L1 → 4 ≤ d1 →
        expand64 parseDecimal64 diamondCatalog L1 d1 "X" (.fin false 7) [] = out) ∧
    expand64 parseDecimal64 diamondCatalog 3 4 "X" (.fin false 7) [] =
      .ok ⟨[⟨"X", .fin false 7, "Constructor", 1, .fin false 70⟩,
            ⟨"A", .fin false 14, "Constructor", 2, .fin false 70⟩,
            ⟨"B", .fin false 21, "Constructor", 3, .fin false 70⟩,
            ⟨"Y", .fin false 7, "Constructor", 1, .fin false 70⟩], [], []⟩ ∧
    expand64 parseDecimal64 diamondCatalog 3 3 "X" (.fin false 7) [] = .error .depth := by
  have hrun : expand64 parseDecimal64 diamondCatalog 3 4 "X" (.fin false 7) [] =
      .ok ⟨[⟨"X", .fin false 7, "Constructor", 1, .fin false 70⟩,
            ⟨"A", .fin false 14, "Constructor", 2, .fin false 70⟩,
            ⟨"B", .fin false 21, "Constructor", 3, .fin false 70⟩,
            ⟨"Y", .fin false 7, "Constructor", 1, .fin false 70⟩], [], []⟩ := by
    decide!
  have h0 : expand64 parseDecimal64 diamondCatalog 0 4 "X" (.fin false 7) [] =
      .error (.loop (.fin false 7) (.fin false 10)) := by decide!
  have h1 : expand64 parseDecimal64 diamondCatalog 1 4 "X" (.fin false 7) [] =
      .error (.loop (.fin false 14) (.fin false 10)) := by decide!
  have h2 : expand64 parseDecimal64 diamondCatalog 2 4 "X" (.fin false 7) [] =
      .error (.loop (.fin false 21) (.fin false 10)) := by decide!
  have hexit : ∀ (L : Nat) (qq M : F64),
      expand64 parseDecimal64 diamondCatalog L 4 "X" (.fin false 7) [] = .error (.loop qq M) →
      ∃ L1, sizingLoop64 qq M L1 1 ≠ none := by
    intro L qq M h
    by_cases hL : 3 ≤ L
    · have := buildRecipe64_mono parseDecimal64 diamondCatalog [] 4 3 L 4 "X" (.fin false 7)
        State64.empty _ (fun e he => by cases he) hL (le_refl _) hrun
      unfold expand64 at h
      rw [this] at h
      cases h
    · have hlt : L < 3 := by omega
      interval_cases L
      · rw [h0] at h
        simp only [Except.error.injEq, Stop.loop.injEq] at h
        obtain ⟨rfl, rfl⟩ := h
        exact ⟨3, by decide!⟩
      · rw [h1] at h
        simp only [Except.error.injEq, Stop.loop.injEq] at h
        obtain ⟨rfl, rfl⟩ := h
        exact ⟨3, by decide!⟩
      · rw [h2] at h
        simp only [Except.error.injEq, Stop.loop.injEq] at h
        obtain ⟨rfl, rfl⟩ := h
        exact ⟨3, by decide!⟩
  have hthm := C15_terminates_when_loops_exit parseDecimal64 diamondCatalog [] diamondRank "X"
    (.fin false 7) 4
    (fun k r0 hk kv hkv => diamondRank_falls k r0 hk kv (by rw [substitute_nil] at hkv; exact hkv))
    (by decide)
  exact ⟨hthm.1, hthm.2 hexit, hrun, by decide!⟩

end SatCalc
